import Mathlib

/-!
Verification of the `nucleus` Task primitive (src/nucleus/task.h, src/nucleus/task.cc).

The repository implements a minimal single-threaded coroutine task:

* `Task` is a move-only handle over a C++ coroutine frame
  (`std::coroutine_handle<promise_type> handle_`).
* `promise_type::initial_suspend` returns `std::suspend_always`, so invoking a
  Task-returning function allocates the frame and suspends before the body.
* `co_await task` yields `Task::Awaiter` (`operator co_await() &&`).
  `Awaiter::await_ready` returns `false` unconditionally;
  `Awaiter::await_suspend(caller)` writes
  `continuation_ = Continuation{.caller_continuation = caller, .done = &done_}`
  into the callee's promise and then calls `this_coroutine_.resume()`.
* When a body runs to completion, `final_suspend` returns a `final_awaiter`
  whose `await_suspend` calls `continuation_.Resume()`:
  `done->Notify(); if (caller_continuation) caller_continuation->resume();`.
  `final_awaiter::await_ready` is `false`, so the frame stays suspended at the
  final suspend point and never destroys itself.
* `unhandled_exception` calls `std::terminate()`.
* `Task::Awaiter::Run` (used only by `BlockOn` in task.cc) installs
  `Continuation{std::nullopt, &n}` for a local `absl::Notification n`,
  resumes the frame, and then calls `n.WaitForNotification()`.
* `~Task` destroys the frame iff the handle is non-null; the move constructor
  exchanges the source's handle with null.

Everything is single-threaded: every resume runs the resumed body synchronously
to its next suspension point.  We therefore model an execution as the linear
trace of observable events it performs, produced by a deterministic interpreter
`run` over a syntax `Body` of coroutine bodies (side-effecting steps, awaits of
freshly created child Tasks, normal return, or an unhandled fault).  Frames are
numbered by allocation order; the notification stashed for frame `f` always has
id `f + 1` (the bridge's local notification for the root frame `0` is id `1`,
and the awaiter `done_` paired with a child frame `cid` is id `cid + 1`).
-/

namespace Nucleus

/-- Models `Task::promise_type::Continuation` (task.h): an optional caller
coroutine handle (represented by the caller's frame id) paired with a pointer
to an `absl::Notification` (represented by a signal id). -/
structure Continuation where
  caller_continuation : Option Nat
  done : Nat
deriving DecidableEq, Repr

/-- Observable events of an execution, in real-time order (the runtime is
single-threaded, so the trace order is the order things actually happen):

* `create f` — a Task-returning function was invoked: frame `f` allocated,
  `get_return_object` ran, and `initial_suspend` (a `std::suspend_always`)
  suspended the frame before its body.
* `stash f k` — continuation `k` was written into frame `f`'s promise
  (`continuation_ = Continuation{...}` in `Awaiter::await_suspend` or
  `Awaiter::Run`).
* `resume f` — `coroutine_handle::resume()` was called on frame `f`.
* `action f l` — frame `f`'s body performed the side-effecting step labelled
  `l` (for example a `LOG(INFO)` line).
* `finished f` — frame `f`'s body ran to completion (`co_return`) and reached
  `final_suspend`.
* `notify s` — `done->Notify()` was called on notification `s`.
* `wait s` — `n.WaitForNotification()` was called on notification `s`.
* `destroy f` — `handle_.destroy()` was called on frame `f` (from `~Task`).
* `terminate` — `std::terminate()` was called (`unhandled_exception`). -/
inductive Event where
  | create (f : Nat)
  | stash (f : Nat) (k : Continuation)
  | resume (f : Nat)
  | action (f : Nat) (l : Nat)
  | finished (f : Nat)
  | notify (s : Nat)
  | wait (s : Nat)
  | destroy (f : Nat)
  | terminate
deriving DecidableEq, Repr

/-- Models `Continuation::Resume` (task.h lines 112-117), as the event list it
emits: `done->Notify();` first, unconditionally; then, iff a caller
continuation was recorded, `caller_continuation->resume();`. -/
def Continuation.Resume (k : Continuation) : List Event :=
  Event.notify k.done ::
    (match k.caller_continuation with
     | some h => [Event.resume h]
     | none => [])

/-- Models `Task::Awaiter::await_ready` (task.h line 145): returns `false`
unconditionally, so an awaiting frame always suspends. -/
def Awaiter.await_ready : Bool := false

/-- Models `final_awaiter::await_ready` (task.h line 100): returns `false`,
so a finished frame always suspends at the final suspend point instead of
running off the end and freeing itself. -/
def final_awaiter.await_ready : Bool := false

/-- Suspend policies a promise can choose at its initial suspend point. -/
inductive SuspendPolicy where
  | always
  | never
deriving DecidableEq, Repr

/-- Models `promise_type::initial_suspend` (task.h line 82): it returns
`std::suspend_always`, so the body does not start at invocation time. -/
def promise_type.initial_suspend : SuspendPolicy := SuspendPolicy.always

/-- Syntax of coroutine bodies writable against this primitive:
`ret` is `co_return`; `fault` raises an unhandled exception; `act l rest`
performs a side-effecting step and continues; `await child rest` invokes a
Task-returning function with body `child` and immediately `co_await`s the
returned Task, then continues with `rest`. -/
inductive Body where
  | ret
  | fault
  | act (l : Nat) (rest : Body)
  | await (child : Body) (rest : Body)
deriving DecidableEq, Repr

/-- Result of interpreting one frame's body: the next fresh id, the emitted
event trace, and whether the process was terminated by an unhandled fault. -/
structure RunOut where
  next : Nat
  tr : List Event
  term : Bool
deriving DecidableEq, Repr

/-- Interpreter for one frame's body, following task.h exactly.

`run f k b fresh` runs the body `b` of frame `f`, whose promise holds the
stashed continuation `k`, with `fresh` the next unused id.

* `ret`: the body completes (`finished f`), reaches `final_suspend`, and the
  `final_awaiter` calls `k.Resume` (notify `k.done`; resume the caller iff
  recorded).  The frame stays suspended at the final point (it does not
  destroy itself: `final_awaiter::await_ready` is false).
* `fault`: `unhandled_exception` runs `std::terminate()`; nothing later in
  the process happens, so the trace is cut here.
* `act l rest`: the side effect happens, then the rest of the body.
* `await child rest`: the callee function is invoked — frame `cid := fresh`
  is allocated and suspended before its body (`create cid`).  The co_await
  expression builds an `Awaiter` holding a fresh `done_` notification
  (id `cid + 1`); `await_ready` is false, so `await_suspend` writes
  `Continuation{.caller_continuation = f, .done = &done_}` into the callee
  (`stash cid ...`) and calls `resume cid`, which synchronously runs the
  child's body.  When the child completes, its `final_awaiter` resumes `f`
  (that `resume f` event is inside the child's trace, emitted by its
  `Continuation.Resume`); back in `f`'s body the co_await full-expression
  ends, destroying the temporary Task and hence the child frame
  (`destroy cid`), and the rest of `f`'s body runs.  If the child's subtree
  terminated the process, nothing after it happens. -/
def run (f : Nat) (k : Continuation) (b : Body) (fresh : Nat) : RunOut :=
  match b with
  | Body.ret => ⟨fresh, Event.finished f :: k.Resume, false⟩
  | Body.fault => ⟨fresh, [Event.terminate], true⟩
  | Body.act l rest =>
      let r := run f k rest fresh
      ⟨r.next, Event.action f l :: r.tr, r.term⟩
  | Body.await child rest =>
      let rc := run fresh ⟨some f, fresh + 1⟩ child (fresh + 2)
      if rc.term then
        ⟨rc.next,
         Event.create fresh :: Event.stash fresh ⟨some f, fresh + 1⟩ ::
           Event.resume fresh :: rc.tr,
         true⟩
      else
        let rr := run f k rest rc.next
        ⟨rr.next,
         Event.create fresh :: Event.stash fresh ⟨some f, fresh + 1⟩ ::
           Event.resume fresh :: rc.tr ++ Event.destroy fresh :: rr.tr,
         rr.term⟩

/-- Whether a body contains no `fault` along any path (the interpreter runs
every part of a body, so this is exactly "the execution never terminates"). -/
def Body.faultFree : Body → Bool
  | Body.ret => true
  | Body.fault => false
  | Body.act _ rest => rest.faultFree
  | Body.await child rest => child.faultFree && rest.faultFree

/-- Models `BlockOn` (task.cc lines 9-11) driving `Task::Awaiter::Run`
(task.h lines 161-169) on a top-level Task with body `b`:

the caller invokes the Task-returning function (frame `0` allocated and
suspended: `create 0`) and passes the Task to `BlockOn`; `Run` declares a
local `absl::Notification n` (id `1`), installs
`Continuation{.caller_continuation = std::nullopt, .done = &n}`
(`stash 0 ...`), resumes the frame, and finally calls
`n.WaitForNotification()` (`wait 1`); when `BlockOn` returns, its by-value
`Task` parameter is destroyed, destroying frame `0` (`destroy 0`).  If the
chain terminated the process, nothing after the fault happens. -/
def BlockOn (b : Body) : List Event :=
  let r := run 0 ⟨none, 1⟩ b 2
  if r.term then
    Event.create 0 :: Event.stash 0 ⟨none, 1⟩ :: Event.resume 0 :: r.tr
  else
    Event.create 0 :: Event.stash 0 ⟨none, 1⟩ :: Event.resume 0 ::
      r.tr ++ [Event.wait 1, Event.destroy 0]

/-- Models the `Task` handle itself for ownership claims:
`std::coroutine_handle<promise_type> handle_`, possibly null. -/
structure Task where
  handle_ : Option Nat
deriving DecidableEq, Repr

/-- Models the move constructor
`Task(Task&& t) noexcept : handle_(std::exchange(t.handle_, {}))` (task.h
line 61): returns the moved-to handle and the state of the moved-from handle
after the exchange. -/
def Task.moveConstruct (t : Task) : Task × Task :=
  (⟨t.handle_⟩, ⟨none⟩)

/-- Models the destructor `~Task() { if (handle_) { handle_.destroy(); } }`
(task.h lines 127-131), as the destroy events it performs. -/
def Task.destructor (t : Task) : List Event :=
  match t.handle_ with
  | some h => [Event.destroy h]
  | none => []

/-- Whether an event belongs to frame `g` (is an event of that frame's
lifecycle or body).  The caller field of a stash and notification ids are not
frame events. -/
def touches (g : Nat) : Event → Bool
  | Event.create f => f = g
  | Event.stash f _ => f = g
  | Event.resume f => f = g
  | Event.action f _ => f = g
  | Event.finished f => f = g
  | Event.destroy f => f = g
  | _ => false

/-- Scope discipline of a single event emitted by `run f k b fresh`, used for
freshness and non-interference arguments: frames mentioned by events are
either the running frame `f` itself, its stashed caller, or frames freshly
allocated in the window `[lo, hi)`; notified signals are either `f + 1`
(the signal stashed with `f`) or signals of freshly allocated frames; no
`wait` is ever performed inside `run` (only the bridge waits). -/
def InScope (f : Nat) (k : Continuation) (lo hi : Nat) : Event → Prop
  | Event.create g => lo ≤ g ∧ g < hi
  | Event.stash g k' =>
      lo ≤ g ∧ g < hi ∧ k'.done = g + 1 ∧
        ∃ p, k'.caller_continuation = some p ∧ (p = f ∨ (lo ≤ p ∧ p < hi))
  | Event.resume g => g = f ∨ k.caller_continuation = some g ∨ (lo ≤ g ∧ g < hi)
  | Event.finished g => g = f ∨ (lo ≤ g ∧ g < hi)
  | Event.action g _ => g = f ∨ (lo ≤ g ∧ g < hi)
  | Event.notify s => s = f + 1 ∨ (lo < s ∧ s ≤ hi)
  | Event.wait _ => False
  | Event.destroy g => lo ≤ g ∧ g < hi
  | Event.terminate => True

/-- Checker for the mirror-order (last awaited, first resumed) cascade.

It scans a trace keeping a stack of pending await compositions: a
`stash cid k` with a recorded caller `h` pushes `(cid, h)` (frame `cid` is
about to run with `h` suspended awaiting it).  Whenever a frame finishes it
must be exactly the top of the stack — the most recently awaited, not yet
finished frame — and the next two events must be the notification of its
own signal (`cid + 1`) and the resumption of precisely its awaiter `h`,
which is then popped.  A frame finishing with an empty stack is the
top-level frame: its signal is notified and nothing is resumed (the bridge,
not a coroutine, owns it).  Every other event passes through.  The checker
accepts iff the whole trace respects this last-awaited-first-resumed
discipline and all compositions are matched at the end. -/
def mirror : List (Nat × Nat) → List Event → Bool
  | stk, Event.stash cid k :: rest =>
      match k.caller_continuation with
      | some h => mirror ((cid, h) :: stk) rest
      | none => mirror stk rest
  | (c, h) :: stk, Event.finished g :: Event.notify s :: Event.resume h2 ::
      rest =>
      decide (g = c) && decide (s = c + 1) && decide (h2 = h) && mirror stk rest
  | _ :: _, Event.finished _ :: _ => false
  | [], Event.finished g :: Event.notify s :: rest =>
      decide (s = g + 1) && mirror [] rest
  | [], Event.finished _ :: _ => false
  | stk, Event.create _ :: rest => mirror stk rest
  | stk, Event.resume _ :: rest => mirror stk rest
  | stk, Event.action _ _ :: rest => mirror stk rest
  | stk, Event.notify _ :: rest => mirror stk rest
  | stk, Event.wait _ :: rest => mirror stk rest
  | stk, Event.destroy _ :: rest => mirror stk rest
  | stk, Event.terminate :: rest => mirror stk rest
  | [], [] => true
  | _ :: _, [] => false

/-- Models `promise_type::unhandled_exception` (task.h line 89): it calls
`std::terminate()` — an unhandled fault immediately terminates the process. -/
def promise_type.unhandled_exception : Event := Event.terminate

/-- Whether an event is a `wait` (a `WaitForNotification` call). -/
def isWait : Event → Bool
  | Event.wait _ => true
  | _ => false

/-- Whether an event is a `notify` (a `Notify` call on some notification). -/
def isNotify : Event → Bool
  | Event.notify _ => true
  | _ => false

/-- Widening the scope window preserves `InScope`. -/
theorem InScope_mono {f : Nat} {k : Continuation} {lo hi lo' hi' : Nat}
    (h1 : lo' ≤ lo) (h2 : hi ≤ hi') :
    ∀ e, InScope f k lo hi e → InScope f k lo' hi' e := by
  intro e he
  cases e with
  | create g => simp only [InScope] at he ⊢; omega
  | stash g k' =>
      simp only [InScope] at he ⊢
      obtain ⟨ha, hb, hc, p, hp, hp2⟩ := he
      refine ⟨by omega, by omega, hc, p, hp, ?_⟩
      rcases hp2 with h | h
      · exact Or.inl h
      · exact Or.inr ⟨by omega, by omega⟩
  | resume g =>
      simp only [InScope] at he ⊢
      rcases he with h | h | h
      · exact Or.inl h
      · exact Or.inr (Or.inl h)
      · exact Or.inr (Or.inr ⟨by omega, by omega⟩)
  | finished g =>
      simp only [InScope] at he ⊢
      rcases he with h | h
      · exact Or.inl h
      · exact Or.inr ⟨by omega, by omega⟩
  | action g l =>
      simp only [InScope] at he ⊢
      rcases he with h | h
      · exact Or.inl h
      · exact Or.inr ⟨by omega, by omega⟩
  | notify s =>
      simp only [InScope] at he ⊢
      rcases he with h | h
      · exact Or.inl h
      · exact Or.inr ⟨by omega, by omega⟩
  | wait s => exact absurd he id
  | destroy g => simp only [InScope] at he ⊢; omega
  | terminate => trivial

/-- An event in scope for a child frame `cid` (awaited by `f`) is in scope
for the parent window starting at `cid`. -/
theorem InScope_child {f cid nc hi : Nat} (kp : Continuation)
    (h1 : cid + 2 ≤ nc) (h2 : nc ≤ hi) :
    ∀ e, InScope cid ⟨some f, cid + 1⟩ (cid + 2) nc e →
      InScope f kp cid hi e := by
  intro e he
  cases e with
  | create g => simp only [InScope] at he ⊢; omega
  | stash g k' =>
      simp only [InScope] at he ⊢
      obtain ⟨ha, hb, hc, p, hp, hp2⟩ := he
      refine ⟨by omega, by omega, hc, p, hp, Or.inr ?_⟩
      rcases hp2 with h | h <;> omega
  | resume g =>
      simp only [InScope, Option.some.injEq] at he ⊢
      rcases he with h | h | h
      · exact Or.inr (Or.inr (by omega))
      · exact Or.inl h.symm
      · exact Or.inr (Or.inr (by omega))
  | finished g =>
      simp only [InScope] at he ⊢
      rcases he with h | h <;> exact Or.inr (by omega)
  | action g l =>
      simp only [InScope] at he ⊢
      rcases he with h | h <;> exact Or.inr (by omega)
  | notify s =>
      simp only [InScope] at he ⊢
      rcases he with h | h <;> exact Or.inr (by omega)
  | wait s => exact absurd he id
  | destroy g => simp only [InScope] at he ⊢; omega
  | terminate => trivial

/-- Splitting an append at a marked element: the marked element lies in the
left part or in the right part. -/
theorem split_append {α : Type} {L R l1 l2 : List α} {a : α}
    (h : L ++ R = l1 ++ a :: l2) :
    (∃ m, L = l1 ++ a :: m ∧ l2 = m ++ R) ∨
    (∃ m, R = m ++ a :: l2 ∧ l1 = L ++ m) := by
  rcases List.append_eq_append_iff.mp h with ⟨m, hm1, hm2⟩ | ⟨m, hm1, hm2⟩
  · exact Or.inr ⟨m, hm2, hm1⟩
  · cases m with
    | nil =>
        right
        refine ⟨[], ?_, ?_⟩ <;> simp_all
    | cons x m' =>
        left
        rw [List.cons_append] at hm2
        injection hm2 with h1 h2
        subst h1
        exact ⟨m', hm1, h2⟩

/-- Splitting a cons at a marked element: either the marked element is the
head, or it lies in the tail. -/
theorem split_cons {α : Type} {e : α} {L l1 l2 : List α} {a : α}
    (h : e :: L = l1 ++ a :: l2) :
    (l1 = [] ∧ a = e ∧ l2 = L) ∨ (∃ m, l1 = e :: m ∧ L = m ++ a :: l2) := by
  cases l1 with
  | nil =>
      left
      simp only [List.nil_append, List.cons.injEq] at h
      exact ⟨rfl, h.1.symm, h.2.symm⟩
  | cons x m =>
      right
      simp only [List.cons_append, List.cons.injEq] at h
      exact ⟨m, by rw [h.1], h.2⟩

/-- Shape of `run` on `ret`. -/
theorem run_ret (f : Nat) (k : Continuation) (fresh : Nat) :
    run f k Body.ret fresh = ⟨fresh, Event.finished f :: k.Resume, false⟩ := rfl

/-- Shape of `run` on `fault`. -/
theorem run_fault (f : Nat) (k : Continuation) (fresh : Nat) :
    run f k Body.fault fresh = ⟨fresh, [Event.terminate], true⟩ := rfl

/-- Shape of `run` on `act`. -/
theorem run_act (f : Nat) (k : Continuation) (l : Nat) (rest : Body)
    (fresh : Nat) :
    run f k (Body.act l rest) fresh =
      ⟨(run f k rest fresh).next, Event.action f l :: (run f k rest fresh).tr,
        (run f k rest fresh).term⟩ := rfl

/-- Shape of `run` on `await` when the child's subtree faults. -/
theorem run_await_true (f : Nat) (k : Continuation) (child rest : Body)
    (fresh : Nat)
    (htc : (run fresh ⟨some f, fresh + 1⟩ child (fresh + 2)).term = true) :
    run f k (Body.await child rest) fresh =
      ⟨(run fresh ⟨some f, fresh + 1⟩ child (fresh + 2)).next,
       Event.create fresh :: Event.stash fresh ⟨some f, fresh + 1⟩ ::
         Event.resume fresh ::
           (run fresh ⟨some f, fresh + 1⟩ child (fresh + 2)).tr,
       true⟩ := by
  simp [run, htc]

/-- Shape of `run` on `await` when the child's subtree completes. -/
theorem run_await_false (f : Nat) (k : Continuation) (child rest : Body)
    (fresh : Nat)
    (htc : (run fresh ⟨some f, fresh + 1⟩ child (fresh + 2)).term = false) :
    run f k (Body.await child rest) fresh =
      ⟨(run f k rest
          (run fresh ⟨some f, fresh + 1⟩ child (fresh + 2)).next).next,
       Event.create fresh :: Event.stash fresh ⟨some f, fresh + 1⟩ ::
         Event.resume fresh ::
           (run fresh ⟨some f, fresh + 1⟩ child (fresh + 2)).tr ++
             Event.destroy fresh ::
               (run f k rest
                 (run fresh ⟨some f, fresh + 1⟩ child (fresh + 2)).next).tr,
       (run f k rest
         (run fresh ⟨some f, fresh + 1⟩ child (fresh + 2)).next).term⟩ := by
  simp [run, htc]

/-- Fresh ids only grow. -/
theorem run_next_le (f : Nat) (k : Continuation) (b : Body) (fresh : Nat) :
    fresh ≤ (run f k b fresh).next := by
  induction b generalizing f k fresh with
  | ret => simp [run_ret]
  | fault => simp [run_fault]
  | act l rest ih => simpa [run_act] using ih f k fresh
  | await child rest ihc ihr =>
      have h1 := ihc fresh ⟨some f, fresh + 1⟩ (fresh + 2)
      cases htc : (run fresh ⟨some f, fresh + 1⟩ child (fresh + 2)).term with
      | true => rw [run_await_true f k child rest fresh htc]; dsimp only; omega
      | false =>
          have h2 := ihr f k (run fresh ⟨some f, fresh + 1⟩ child (fresh + 2)).next
          rw [run_await_false f k child rest fresh htc]
          dsimp only
          omega

/-- Every event of `run f k b fresh` is in scope for the window
`[fresh, (run f k b fresh).next)`. -/
theorem run_scope (f : Nat) (k : Continuation) (b : Body) (fresh : Nat)
    (hk : k.done = f + 1) :
    ∀ e ∈ (run f k b fresh).tr, InScope f k fresh (run f k b fresh).next e := by
  induction b generalizing f k fresh with
  | ret =>
      intro e he
      rw [run_ret] at he ⊢
      dsimp only at he ⊢
      simp only [Continuation.Resume] at he
      rcases List.mem_cons.mp he with rfl | he
      · exact Or.inl rfl
      · cases hc : k.caller_continuation with
        | none =>
            rw [hc] at he
            rcases List.mem_cons.mp he with rfl | he
            · exact Or.inl hk
            · simp at he
        | some h =>
            rw [hc] at he
            rcases List.mem_cons.mp he with rfl | he
            · exact Or.inl hk
            · rcases List.mem_cons.mp he with rfl | he
              · exact Or.inr (Or.inl hc)
              · simp at he
  | fault =>
      intro e he
      rw [run_fault] at he
      dsimp only at he
      rcases List.mem_singleton.mp he with rfl
      trivial
  | act l rest ih =>
      intro e he
      rw [run_act] at he ⊢
      dsimp only at he ⊢
      rcases List.mem_cons.mp he with rfl | he
      · exact Or.inl rfl
      · exact ih f k fresh hk e he
  | await child rest ihc ihr =>
      intro e he
      have hnc := run_next_le fresh ⟨some f, fresh + 1⟩ child (fresh + 2)
      have hic := ihc fresh ⟨some f, fresh + 1⟩ (fresh + 2) rfl
      cases htc : (run fresh ⟨some f, fresh + 1⟩ child (fresh + 2)).term with
      | true =>
          rw [run_await_true f k child rest fresh htc] at he ⊢
          dsimp only at he ⊢
          rcases List.mem_cons.mp he with rfl | he
          · exact ⟨by omega, by omega⟩
          · rcases List.mem_cons.mp he with rfl | he
            · exact ⟨by omega, by omega, rfl, f, rfl, Or.inl rfl⟩
            · rcases List.mem_cons.mp he with rfl | he
              · exact Or.inr (Or.inr ⟨by omega, by omega⟩)
              · exact InScope_child k hnc le_rfl e (hic e he)
      | false =>
          have hnr := run_next_le f k rest
            (run fresh ⟨some f, fresh + 1⟩ child (fresh + 2)).next
          have hir := ihr f k
            (run fresh ⟨some f, fresh + 1⟩ child (fresh + 2)).next hk
          rw [run_await_false f k child rest fresh htc] at he ⊢
          dsimp only at he ⊢
          rcases List.mem_cons.mp he with rfl | he
          · exact ⟨by omega, by omega⟩
          · rcases List.mem_cons.mp he with rfl | he
            · exact ⟨by omega, by omega, rfl, f, rfl, Or.inl rfl⟩
            · rcases List.mem_cons.mp he with rfl | he
              · exact Or.inr (Or.inr ⟨by omega, by omega⟩)
              · rcases List.mem_append.mp he with he | he
                · exact InScope_child k hnc hnr e (hic e he)
                · rcases List.mem_cons.mp he with rfl | he
                  · exact ⟨by omega, by omega⟩
                  · exact InScope_mono (by omega) le_rfl e (hir e he)

/-- The interpreter terminates the process exactly when the body is not
fault-free (the whole body is executed, so any fault is reached). -/
theorem run_term_faultFree (f : Nat) (k : Continuation) (b : Body)
    (fresh : Nat) : (run f k b fresh).term = !b.faultFree := by
  induction b generalizing f k fresh with
  | ret => simp [run_ret, Body.faultFree]
  | fault => simp [run_fault, Body.faultFree]
  | act l rest ih => simp [run_act, Body.faultFree, ih]
  | await child rest ihc ihr =>
      cases htc : (run fresh ⟨some f, fresh + 1⟩ child (fresh + 2)).term with
      | true =>
          rw [run_await_true f k child rest fresh htc]
          have := ihc fresh ⟨some f, fresh + 1⟩ (fresh + 2)
          rw [htc] at this
          simp [Body.faultFree, ← this]
      | false =>
          rw [run_await_false f k child rest fresh htc]
          have := ihc fresh ⟨some f, fresh + 1⟩ (fresh + 2)
          rw [htc] at this
          simp [Body.faultFree, ihr, ← this]

/-- A completed (non-terminated) execution performed no `terminate`. -/
theorem run_no_terminate (f : Nat) (k : Continuation) (b : Body) (fresh : Nat)
    (ht : (run f k b fresh).term = false) :
    Event.terminate ∉ (run f k b fresh).tr := by
  induction b generalizing f k fresh with
  | ret =>
      rw [run_ret]
      cases hc : k.caller_continuation <;>
        simp [Continuation.Resume, hc]
  | fault => rw [run_fault] at ht; simp at ht
  | act l rest ih =>
      rw [run_act] at ht ⊢
      dsimp only at ht ⊢
      simp only [List.mem_cons, not_or]
      exact ⟨by simp, ih f k fresh ht⟩
  | await child rest ihc ihr =>
      cases htc : (run fresh ⟨some f, fresh + 1⟩ child (fresh + 2)).term with
      | true => rw [run_await_true f k child rest fresh htc] at ht; simp at ht
      | false =>
          rw [run_await_false f k child rest fresh htc] at ht ⊢
          dsimp only at ht ⊢
          intro hm
          rcases List.mem_cons.mp hm with h | hm
          · exact Event.noConfusion h
          rcases List.mem_cons.mp hm with h | hm
          · exact Event.noConfusion h
          rcases List.mem_cons.mp hm with h | hm
          · exact Event.noConfusion h
          rcases List.mem_append.mp hm with h | hm
          · exact ihc fresh ⟨some f, fresh + 1⟩ (fresh + 2) htc h
          rcases List.mem_cons.mp hm with h | hm
          · exact Event.noConfusion h
          · exact ihr f k
              (run fresh ⟨some f, fresh + 1⟩ child (fresh + 2)).next ht hm

/-- A terminated execution's trace ends at the `terminate` (the process is
gone; nothing later happens). -/
theorem run_terminate_last (f : Nat) (k : Continuation) (b : Body)
    (fresh : Nat) (ht : (run f k b fresh).term = true) :
    ∃ l, (run f k b fresh).tr = l ++ [Event.terminate] := by
  induction b generalizing f k fresh with
  | ret => rw [run_ret] at ht; simp at ht
  | fault => exact ⟨[], rfl⟩
  | act l rest ih =>
      rw [run_act] at ht ⊢
      dsimp only at ht ⊢
      obtain ⟨m, hm⟩ := ih f k fresh ht
      exact ⟨Event.action f l :: m, by rw [hm]; rfl⟩
  | await child rest ihc ihr =>
      cases htc : (run fresh ⟨some f, fresh + 1⟩ child (fresh + 2)).term with
      | true =>
          rw [run_await_true f k child rest fresh htc]
          dsimp only
          obtain ⟨m, hm⟩ := ihc fresh ⟨some f, fresh + 1⟩ (fresh + 2) htc
          exact ⟨Event.create fresh :: Event.stash fresh ⟨some f, fresh + 1⟩ ::
            Event.resume fresh :: m, by rw [hm]; rfl⟩
      | false =>
          rw [run_await_false f k child rest fresh htc] at ht ⊢
          dsimp only at ht ⊢
          obtain ⟨m, hm⟩ := ihr f k
            (run fresh ⟨some f, fresh + 1⟩ child (fresh + 2)).next ht
          refine ⟨Event.create fresh :: Event.stash fresh ⟨some f, fresh + 1⟩ ::
            Event.resume fresh ::
              (run fresh ⟨some f, fresh + 1⟩ child (fresh + 2)).tr ++
                Event.destroy fresh :: m, ?_⟩
          rw [hm]
          simp

/-- A completed execution's trace ends with the frame's own continuation
signalling, `k.Resume` (notify first, then resume the caller if recorded). -/
theorem run_Resume_suffix (f : Nat) (k : Continuation) (b : Body)
    (fresh : Nat) (ht : (run f k b fresh).term = false) :
    ∃ l, (run f k b fresh).tr = l ++ k.Resume := by
  induction b generalizing f k fresh with
  | ret => exact ⟨[Event.finished f], rfl⟩
  | fault => rw [run_fault] at ht; simp at ht
  | act l rest ih =>
      rw [run_act] at ht ⊢
      dsimp only at ht ⊢
      obtain ⟨m, hm⟩ := ih f k fresh ht
      exact ⟨Event.action f l :: m, by rw [hm]; rfl⟩
  | await child rest ihc ihr =>
      cases htc : (run fresh ⟨some f, fresh + 1⟩ child (fresh + 2)).term with
      | true => rw [run_await_true f k child rest fresh htc] at ht; simp at ht
      | false =>
          rw [run_await_false f k child rest fresh htc] at ht ⊢
          dsimp only at ht ⊢
          obtain ⟨m, hm⟩ := ihr f k
            (run fresh ⟨some f, fresh + 1⟩ child (fresh + 2)).next ht
          refine ⟨Event.create fresh :: Event.stash fresh ⟨some f, fresh + 1⟩ ::
            Event.resume fresh ::
              (run fresh ⟨some f, fresh + 1⟩ child (fresh + 2)).tr ++
                Event.destroy fresh :: m, ?_⟩
          rw [hm]
          simp

/-- A completed execution contains the frame's own completion event. -/
theorem run_finished_self (f : Nat) (k : Continuation) (b : Body)
    (fresh : Nat) (ht : (run f k b fresh).term = false) :
    Event.finished f ∈ (run f k b fresh).tr := by
  induction b generalizing f k fresh with
  | ret => rw [run_ret]; exact List.mem_cons_self _ _
  | fault => rw [run_fault] at ht; simp at ht
  | act l rest ih =>
      rw [run_act] at ht ⊢
      dsimp only at ht ⊢
      exact List.mem_cons_of_mem _ (ih f k fresh ht)
  | await child rest ihc ihr =>
      cases htc : (run fresh ⟨some f, fresh + 1⟩ child (fresh + 2)).term with
      | true => rw [run_await_true f k child rest fresh htc] at ht; simp at ht
      | false =>
          rw [run_await_false f k child rest fresh htc] at ht ⊢
          dsimp only at ht ⊢
          have := ihr f k
            (run fresh ⟨some f, fresh + 1⟩ child (fresh + 2)).next ht
          simp [this]

/-- In a completed execution every frame that was created also finished. -/
theorem run_create_finished (f : Nat) (k : Continuation) (b : Body)
    (fresh : Nat) (ht : (run f k b fresh).term = false) :
    ∀ cid, Event.create cid ∈ (run f k b fresh).tr →
      Event.finished cid ∈ (run f k b fresh).tr := by
  induction b generalizing f k fresh with
  | ret =>
      intro cid hc
      rw [run_ret] at hc
      cases hcc : k.caller_continuation <;>
        simp [Continuation.Resume, hcc] at hc
  | fault => rw [run_fault] at ht; simp at ht
  | act l rest ih =>
      intro cid hc
      rw [run_act] at ht hc ⊢
      dsimp only at ht hc ⊢
      rcases List.mem_cons.mp hc with h | h
      · exact absurd h (by simp)
      · exact List.mem_cons_of_mem _ (ih f k fresh ht cid h)
  | await child rest ihc ihr =>
      intro cid hc
      cases htc : (run fresh ⟨some f, fresh + 1⟩ child (fresh + 2)).term with
      | true => rw [run_await_true f k child rest fresh htc] at ht; simp at ht
      | false =>
          rw [run_await_false f k child rest fresh htc] at ht hc ⊢
          dsimp only at ht hc ⊢
          simp only [List.mem_cons, List.mem_append]
          rcases List.mem_cons.mp hc with h | hc
          · obtain rfl : cid = fresh := by injection h
            have := run_finished_self cid ⟨some f, cid + 1⟩ child
              (cid + 2) htc
            tauto
          rcases List.mem_cons.mp hc with h | hc
          · exact Event.noConfusion h
          rcases List.mem_cons.mp hc with h | hc
          · exact Event.noConfusion h
          rcases List.mem_append.mp hc with h | hc
          · have := ihc fresh ⟨some f, fresh + 1⟩ (fresh + 2) htc cid h
            tauto
          rcases List.mem_cons.mp hc with h | hc
          · exact Event.noConfusion h
          · have := ihr f k
              (run fresh ⟨some f, fresh + 1⟩ child (fresh + 2)).next ht cid hc
            tauto

/-- An event in scope for a window that excludes the frame id `g` does not
touch `g`. -/
theorem InScope_not_touches {f : Nat} {k : Continuation} {lo hi g : Nat}
    (hg1 : g ≠ f) (hg2 : ∀ p, k.caller_continuation = some p → g ≠ p)
    (hg3 : g < lo ∨ hi ≤ g) :
    ∀ e, InScope f k lo hi e → touches g e = false := by
  intro e he
  cases e with
  | create g' =>
      simp only [InScope] at he
      simp only [touches, decide_eq_false_iff_not]
      omega
  | stash g' k' =>
      simp only [InScope] at he
      simp only [touches, decide_eq_false_iff_not]
      omega
  | resume g' =>
      simp only [InScope] at he
      simp only [touches, decide_eq_false_iff_not]
      rcases he with h | h | h
      · omega
      · exact fun hc => hg2 g' h (hc ▸ rfl)
      · omega
  | finished g' =>
      simp only [InScope] at he
      simp only [touches, decide_eq_false_iff_not]
      rcases he with h | h <;> omega
  | action g' l =>
      simp only [InScope] at he
      simp only [touches, decide_eq_false_iff_not]
      rcases he with h | h <;> omega
  | notify s => rfl
  | wait s => rfl
  | destroy g' =>
      simp only [InScope] at he
      simp only [touches, decide_eq_false_iff_not]
      omega
  | terminate => rfl

/-- Decomposition of a trace at a stash: every continuation write into a
frame `cid` happens as part of the await protocol block
`create cid, stash cid k, resume cid` — the frame is created, its
continuation is stashed, and only then is the frame resumed, with no event
of frame `cid` (no resume, no body step, no completion, no destruction)
anywhere before the stash, and with no second stash or create of `cid`
afterwards. -/
theorem run_stash_decomp (f : Nat) (k : Continuation) (b : Body) (fresh : Nat)
    (hk : k.done = f + 1) (hf : f + 1 < fresh) :
    ∀ cid k', Event.stash cid k' ∈ (run f k b fresh).tr →
      ∃ l1 l2, (run f k b fresh).tr =
          l1 ++ Event.create cid :: Event.stash cid k' ::
            Event.resume cid :: l2 ∧
        (∀ e ∈ l1, touches cid e = false) ∧
        (∀ e ∈ l2, e ≠ Event.create cid ∧ ∀ k2, e ≠ Event.stash cid k2) := by
  induction b generalizing f k fresh with
  | ret =>
      intro cid k' hm
      rw [run_ret] at hm
      rcases List.mem_cons.mp hm with h | hm
      · exact absurd h (by simp)
      · cases hc : k.caller_continuation <;>
          simp [Continuation.Resume, hc] at hm
  | fault =>
      intro cid k' hm
      rw [run_fault] at hm
      simp at hm
  | act l rest ih =>
      intro cid k' hm
      rw [run_act] at hm ⊢
      dsimp only at hm ⊢
      rcases List.mem_cons.mp hm with h | hm
      · exact absurd h (by simp)
      · obtain ⟨l1, l2, heq, h1, h2⟩ := ih f k fresh hk hf cid k' hm
        have hcid : fresh ≤ cid := by
          have := run_scope f k rest fresh hk _ hm
          simp only [InScope] at this
          omega
        refine ⟨Event.action f l :: l1, l2, by rw [heq]; rfl, ?_, h2⟩
        intro e he
        rcases List.mem_cons.mp he with rfl | he
        · simp only [touches, decide_eq_false_iff_not]
          omega
        · exact h1 e he
  | await child rest ihc ihr =>
      intro cid k' hm
      have hnc := run_next_le fresh ⟨some f, fresh + 1⟩ child (fresh + 2)
      have hscc := run_scope fresh ⟨some f, fresh + 1⟩ child (fresh + 2) rfl
      cases htc : (run fresh ⟨some f, fresh + 1⟩ child (fresh + 2)).term with
      | true =>
          rw [run_await_true f k child rest fresh htc] at hm ⊢
          dsimp only at hm ⊢
          rcases List.mem_cons.mp hm with h | hm
          · exact absurd h (by simp)
          rcases List.mem_cons.mp hm with h | hm
          · obtain ⟨rfl, rfl⟩ : cid = fresh ∧
                k' = (⟨some f, fresh + 1⟩ : Continuation) := by
              injection h with h1 h2; exact ⟨h1, h2⟩
            refine ⟨[], (run cid ⟨some f, cid + 1⟩ child (cid + 2)).tr,
              rfl, by simp, ?_⟩
            intro e he
            have := hscc e he
            constructor
            · intro hce
              subst hce
              simp only [InScope] at this
              omega
            · intro k2 hse
              subst hse
              simp only [InScope] at this
              omega
          rcases List.mem_cons.mp hm with h | hm
          · exact absurd h (by simp)
          · obtain ⟨l1, l2, heq, h1, h2⟩ :=
              ihc fresh ⟨some f, fresh + 1⟩ (fresh + 2) rfl (by omega)
                cid k' hm
            have hcid : fresh + 2 ≤ cid := by
              have := hscc _ hm
              simp only [InScope] at this
              omega
            refine ⟨Event.create fresh :: Event.stash fresh ⟨some f, fresh + 1⟩ ::
              Event.resume fresh :: l1, l2, by rw [heq]; rfl, ?_, h2⟩
            intro e he
            rcases List.mem_cons.mp he with rfl | he
            · simp only [touches, decide_eq_false_iff_not]; omega
            rcases List.mem_cons.mp he with rfl | he
            · simp only [touches, decide_eq_false_iff_not]; omega
            rcases List.mem_cons.mp he with rfl | he
            · simp only [touches, decide_eq_false_iff_not]; omega
            · exact h1 e he
      | false =>
          have hnr := run_next_le f k rest
            (run fresh ⟨some f, fresh + 1⟩ child (fresh + 2)).next
          have hscr := run_scope f k rest
            (run fresh ⟨some f, fresh + 1⟩ child (fresh + 2)).next hk
          rw [run_await_false f k child rest fresh htc] at hm ⊢
          dsimp only at hm ⊢
          rcases List.mem_cons.mp hm with h | hm
          · exact absurd h (by simp)
          rcases List.mem_cons.mp hm with h | hm
          · obtain ⟨rfl, rfl⟩ : cid = fresh ∧
                k' = (⟨some f, fresh + 1⟩ : Continuation) := by
              injection h with h1 h2; exact ⟨h1, h2⟩
            refine ⟨[], (run cid ⟨some f, cid + 1⟩ child (cid + 2)).tr ++
              Event.destroy cid ::
                (run f k rest
                  (run cid ⟨some f, cid + 1⟩ child (cid + 2)).next).tr,
              rfl, by simp, ?_⟩
            intro e he
            rcases List.mem_append.mp he with he | he
            · have := hscc e he
              constructor
              · intro hce; subst hce
                simp only [InScope] at this; omega
              · intro k2 hse; subst hse
                simp only [InScope] at this; omega
            rcases List.mem_cons.mp he with rfl | he
            · simp
            · have := hscr e he
              constructor
              · intro hce; subst hce
                simp only [InScope] at this; omega
              · intro k2 hse; subst hse
                simp only [InScope] at this; omega
          rcases List.mem_cons.mp hm with h | hm
          · exact absurd h (by simp)
          rcases List.mem_append.mp hm with hm | hm
          · obtain ⟨l1, l2, heq, h1, h2⟩ :=
              ihc fresh ⟨some f, fresh + 1⟩ (fresh + 2) rfl (by omega)
                cid k' hm
            have hcid : fresh + 2 ≤ cid ∧
                cid < (run fresh ⟨some f, fresh + 1⟩ child (fresh + 2)).next := by
              have := hscc _ hm
              simp only [InScope] at this
              omega
            refine ⟨Event.create fresh :: Event.stash fresh ⟨some f, fresh + 1⟩ ::
              Event.resume fresh :: l1,
              l2 ++ Event.destroy fresh ::
                (run f k rest
                  (run fresh ⟨some f, fresh + 1⟩ child (fresh + 2)).next).tr,
              by rw [heq]; simp, ?_, ?_⟩
            · intro e he
              rcases List.mem_cons.mp he with rfl | he
              · simp only [touches, decide_eq_false_iff_not]; omega
              rcases List.mem_cons.mp he with rfl | he
              · simp only [touches, decide_eq_false_iff_not]; omega
              rcases List.mem_cons.mp he with rfl | he
              · simp only [touches, decide_eq_false_iff_not]; omega
              · exact h1 e he
            · intro e he
              rcases List.mem_append.mp he with he | he
              · exact h2 e he
              rcases List.mem_cons.mp he with rfl | he
              · constructor
                · intro hce; exact Event.noConfusion hce
                · intro k2 hse; exact Event.noConfusion hse
              · have := hscr e he
                constructor
                · intro hce; subst hce
                  simp only [InScope] at this; omega
                · intro k2 hse; subst hse
                  simp only [InScope] at this; omega
          rcases List.mem_cons.mp hm with h | hm
          · exact absurd h (by simp)
          · obtain ⟨l1, l2, heq, h1, h2⟩ :=
              ihr f k (run fresh ⟨some f, fresh + 1⟩ child (fresh + 2)).next
                hk (by omega) cid k' hm
            have hcid :
                (run fresh ⟨some f, fresh + 1⟩ child (fresh + 2)).next ≤ cid := by
              have := hscr _ hm
              simp only [InScope] at this
              omega
            refine ⟨Event.create fresh :: Event.stash fresh ⟨some f, fresh + 1⟩ ::
              Event.resume fresh ::
                (run fresh ⟨some f, fresh + 1⟩ child (fresh + 2)).tr ++
                  Event.destroy fresh :: l1,
              l2, by rw [heq]; simp, ?_, h2⟩
            intro e he
            rcases List.mem_cons.mp he with rfl | he
            · simp only [touches, decide_eq_false_iff_not]; omega
            rcases List.mem_cons.mp he with rfl | he
            · simp only [touches, decide_eq_false_iff_not]; omega
            rcases List.mem_cons.mp he with rfl | he
            · simp only [touches, decide_eq_false_iff_not]; omega
            rcases List.mem_append.mp he with he | he
            · exact InScope_not_touches (by omega)
                (by intro p hp; injection hp with hp2; omega)
                (by omega) e (hscc e he)
            rcases List.mem_cons.mp he with rfl | he
            · simp only [touches, decide_eq_false_iff_not]; omega
            · exact h1 e he

/-- A continuation's `Resume` event list never contains a `finished`. -/
theorem Resume_no_finished (k : Continuation) (g : Nat) :
    Event.finished g ∉ k.Resume := by
  cases hc : k.caller_continuation <;> simp [Continuation.Resume, hc]

/-- Completion protocol: whenever a frame `g` finishes, what happens next is
exactly the `Resume` of the continuation that was stashed into `g` earlier in
the trace: its notification is notified first, then its recorded caller (if
any) is resumed.  (For the frame `f` whose stash event lies outside this
subtrace, the first disjunct returns the stashed continuation `k` itself.) -/
theorem run_finished_Resume (f : Nat) (k : Continuation) (b : Body)
    (fresh : Nat) :
    ∀ l1 g l2, (run f k b fresh).tr = l1 ++ Event.finished g :: l2 →
      (g = f ∧ ∃ l3, l2 = k.Resume ++ l3) ∨
      (∃ k2 l3, Event.stash g k2 ∈ l1 ∧ l2 = k2.Resume ++ l3) := by
  induction b generalizing f k fresh with
  | ret =>
      intro l1 g l2 heq
      rw [run_ret] at heq
      dsimp only at heq
      rcases split_cons heq with ⟨rfl, h2, rfl⟩ | ⟨m, rfl, hm⟩
      · obtain rfl : g = f := by injection h2
        exact Or.inl ⟨rfl, [], by simp⟩
      · exfalso
        exact Resume_no_finished k g (hm ▸ List.mem_append_right m
          (List.mem_cons_self _ _))
  | fault =>
      intro l1 g l2 heq
      rw [run_fault] at heq
      dsimp only at heq
      rcases split_cons heq with ⟨rfl, h2, rfl⟩ | ⟨m, rfl, hm⟩
      · exact Event.noConfusion h2
      · simp at hm
  | act l rest ih =>
      intro l1 g l2 heq
      rw [run_act] at heq
      dsimp only at heq
      rcases split_cons heq with ⟨rfl, h2, rfl⟩ | ⟨m, rfl, hm⟩
      · exact Event.noConfusion h2
      · rcases ih f k fresh m g l2 hm with ⟨hgf, l3, h3⟩ | ⟨k2, l3, h3, h4⟩
        · exact Or.inl ⟨hgf, l3, h3⟩
        · exact Or.inr ⟨k2, l3, List.mem_cons_of_mem _ h3, h4⟩
  | await child rest ihc ihr =>
      intro l1 g l2 heq
      cases htc : (run fresh ⟨some f, fresh + 1⟩ child (fresh + 2)).term with
      | true =>
          rw [run_await_true f k child rest fresh htc] at heq
          dsimp only at heq
          rcases split_cons heq with ⟨rfl, h2, rfl⟩ | ⟨m, rfl, hm⟩
          · exact Event.noConfusion h2
          rcases split_cons hm with ⟨rfl, h2, rfl⟩ | ⟨m2, rfl, hm2⟩
          · exact Event.noConfusion h2
          rcases split_cons hm2 with ⟨rfl, h2, rfl⟩ | ⟨m3, rfl, hm3⟩
          · exact Event.noConfusion h2
          rcases ihc fresh ⟨some f, fresh + 1⟩ (fresh + 2) m3 g l2 hm3
            with ⟨hgf, l3, h3⟩ | ⟨k2, l3, h3, h4⟩
          · refine Or.inr ⟨⟨some f, fresh + 1⟩, l3, ?_, h3⟩
            rw [hgf]
            simp
          · exact Or.inr ⟨k2, l3, by simp [h3], h4⟩
      | false =>
          rw [run_await_false f k child rest fresh htc] at heq
          dsimp only at heq
          rcases split_cons heq with ⟨rfl, h2, rfl⟩ | ⟨m, rfl, hm⟩
          · exact Event.noConfusion h2
          rcases split_cons hm with ⟨rfl, h2, rfl⟩ | ⟨m2, rfl, hm2⟩
          · exact Event.noConfusion h2
          rcases split_cons hm2 with ⟨rfl, h2, rfl⟩ | ⟨m3, rfl, hm3⟩
          · exact Event.noConfusion h2
          rcases split_append hm3 with ⟨m4, hm4, hl2⟩ | ⟨m4, hm4, hl1⟩
          · rcases ihc fresh ⟨some f, fresh + 1⟩ (fresh + 2) m3 g m4 hm4
              with ⟨hgf, l3, h3⟩ | ⟨k2, l3, h3, h4⟩
            · refine Or.inr ⟨⟨some f, fresh + 1⟩,
                l3 ++ Event.destroy fresh ::
                  (run f k rest
                    (run fresh ⟨some f, fresh + 1⟩ child (fresh + 2)).next).tr,
                ?_, ?_⟩
              · rw [hgf]
                simp
              · rw [hl2, h3]
                simp
            · refine Or.inr ⟨k2,
                l3 ++ Event.destroy fresh ::
                  (run f k rest
                    (run fresh ⟨some f, fresh + 1⟩ child (fresh + 2)).next).tr,
                by simp [h3], ?_⟩
              rw [hl2, h4]
              simp
          · rcases split_cons hm4 with ⟨rfl, h2, rfl⟩ | ⟨m5, rfl, hm5⟩
            · exact Event.noConfusion h2
            rcases ihr f k
              (run fresh ⟨some f, fresh + 1⟩ child (fresh + 2)).next m5 g l2
              hm5 with ⟨hgf, l3, h3⟩ | ⟨k2, l3, h3, h4⟩
            · exact Or.inl ⟨hgf, l3, h3⟩
            · refine Or.inr ⟨k2, l3, ?_, h4⟩
              rw [hl1]
              simp [h3]

/-- A completed frame with a recorded caller `h` consumes exactly its own
entry from the mirror checker's stack. -/
theorem mirror_run_some (b : Body) :
    ∀ (f : Nat) (k : Continuation) (fresh : Nat), k.done = f + 1 →
      ∀ h, k.caller_continuation = some h →
        (run f k b fresh).term = false →
          ∀ stk rest2,
            mirror ((f, h) :: stk) ((run f k b fresh).tr ++ rest2) =
              mirror stk rest2 := by
  induction b with
  | ret =>
      intro f k fresh hk h hc ht stk rest2
      rw [run_ret]
      dsimp only
      simp [Continuation.Resume, hc, hk, mirror]
  | fault =>
      intro f k fresh hk h hc ht stk rest2
      rw [run_fault] at ht; simp at ht
  | act l rest ih =>
      intro f k fresh hk h hc ht stk rest2
      rw [run_act] at ht ⊢
      dsimp only at ht ⊢
      rw [List.cons_append, mirror]
      exact ih f k fresh hk h hc ht stk rest2
  | await child rest ihc ihr =>
      intro f k fresh hk h hc ht stk rest2
      cases htc : (run fresh ⟨some f, fresh + 1⟩ child (fresh + 2)).term with
      | true => rw [run_await_true f k child rest fresh htc] at ht; simp at ht
      | false =>
          rw [run_await_false f k child rest fresh htc] at ht ⊢
          dsimp only at ht ⊢
          rw [List.cons_append, List.cons_append, List.cons_append, mirror]
          simp only [mirror]
          simp only [List.append_eq]
          rw [List.append_assoc, List.cons_append]
          rw [ihc fresh ⟨some f, fresh + 1⟩ (fresh + 2) rfl f rfl htc
            ((f, h) :: stk)]
          rw [mirror]
          exact ihr f k
            (run fresh ⟨some f, fresh + 1⟩ child (fresh + 2)).next hk h hc ht
            stk rest2

/-- A completed top-level frame (no recorded caller) leaves the mirror
checker's empty stack empty. -/
theorem mirror_run_none (f : Nat) (k : Continuation) (b : Body) (fresh : Nat)
    (hk : k.done = f + 1) (hc : k.caller_continuation = none)
    (ht : (run f k b fresh).term = false) :
    ∀ rest2,
      mirror [] ((run f k b fresh).tr ++ rest2) = mirror [] rest2 := by
  induction b generalizing f k fresh with
  | ret =>
      intro rest2
      rw [run_ret]
      dsimp only
      simp [Continuation.Resume, hc, hk, mirror]
  | fault => rw [run_fault] at ht; simp at ht
  | act l rest ih =>
      intro rest2
      rw [run_act] at ht ⊢
      dsimp only at ht ⊢
      rw [List.cons_append, mirror]
      exact ih f k fresh hk hc ht rest2
  | await child rest ihc ihr =>
      intro rest2
      cases htc : (run fresh ⟨some f, fresh + 1⟩ child (fresh + 2)).term with
      | true => rw [run_await_true f k child rest fresh htc] at ht; simp at ht
      | false =>
          rw [run_await_false f k child rest fresh htc] at ht ⊢
          dsimp only at ht ⊢
          rw [List.cons_append, List.cons_append, List.cons_append, mirror]
          simp only [mirror]
          simp only [List.append_eq]
          rw [List.append_assoc, List.cons_append]
          rw [mirror_run_some child fresh ⟨some f, fresh + 1⟩ (fresh + 2) rfl
            f rfl htc []]
          rw [mirror]
          exact ihr f k
            (run fresh ⟨some f, fresh + 1⟩ child (fresh + 2)).next hk hc ht
            rest2

/-- In a completed execution every destroy of a frame happens exactly once
and strictly after that frame finished. -/
theorem run_destroy (f : Nat) (k : Continuation) (b : Body) (fresh : Nat)
    (hk : k.done = f + 1) (ht : (run f k b fresh).term = false) :
    ∀ cid, Event.destroy cid ∈ (run f k b fresh).tr →
      ∃ l1 l2, (run f k b fresh).tr = l1 ++ Event.destroy cid :: l2 ∧
        Event.finished cid ∈ l1 ∧ Event.destroy cid ∉ l1 ∧
        Event.destroy cid ∉ l2 := by
  induction b generalizing f k fresh with
  | ret =>
      intro cid hm
      rw [run_ret] at hm
      rcases List.mem_cons.mp hm with hh | hm
      · exact Event.noConfusion hh
      · cases hcc : k.caller_continuation <;>
          simp [Continuation.Resume, hcc] at hm
  | fault => intro cid hm; rw [run_fault] at ht; simp at ht
  | act l rest ih =>
      intro cid hm
      rw [run_act] at ht hm ⊢
      dsimp only at ht hm ⊢
      rcases List.mem_cons.mp hm with hh | hm
      · exact Event.noConfusion hh
      · obtain ⟨l1, l2, heq, h1, h2, h3⟩ := ih f k fresh hk ht cid hm
        exact ⟨Event.action f l :: l1, l2, by rw [heq]; rfl,
          List.mem_cons_of_mem _ h1, by
            intro hx
            rcases List.mem_cons.mp hx with hh | hx
            · exact Event.noConfusion hh
            · exact h2 hx, h3⟩
  | await child rest ihc ihr =>
      intro cid hm
      have hnc := run_next_le fresh ⟨some f, fresh + 1⟩ child (fresh + 2)
      have hscc := run_scope fresh ⟨some f, fresh + 1⟩ child (fresh + 2) rfl
      cases htc : (run fresh ⟨some f, fresh + 1⟩ child (fresh + 2)).term with
      | true => rw [run_await_true f k child rest fresh htc] at ht; simp at ht
      | false =>
          have hnr := run_next_le f k rest
            (run fresh ⟨some f, fresh + 1⟩ child (fresh + 2)).next
          have hscr := run_scope f k rest
            (run fresh ⟨some f, fresh + 1⟩ child (fresh + 2)).next hk
          rw [run_await_false f k child rest fresh htc] at ht hm ⊢
          dsimp only at ht hm ⊢
          have hnotrc : Event.destroy fresh ∉
              (run fresh ⟨some f, fresh + 1⟩ child (fresh + 2)).tr := by
            intro hx
            have := hscc _ hx
            simp only [InScope] at this
            omega
          have hnotrr : Event.destroy fresh ∉
              (run f k rest
                (run fresh ⟨some f, fresh + 1⟩ child (fresh + 2)).next).tr := by
            intro hx
            have := hscr _ hx
            simp only [InScope] at this
            omega
          rcases List.mem_cons.mp hm with hh | hm
          · exact Event.noConfusion hh
          rcases List.mem_cons.mp hm with hh | hm
          · exact Event.noConfusion hh
          rcases List.mem_cons.mp hm with hh | hm
          · exact Event.noConfusion hh
          rcases List.mem_append.mp hm with hm | hm
          · obtain ⟨l1, l2, heq, h1, h2, h3⟩ :=
              ihc fresh ⟨some f, fresh + 1⟩ (fresh + 2) rfl htc cid hm
            have hcid : fresh + 2 ≤ cid ∧
                cid < (run fresh ⟨some f, fresh + 1⟩ child (fresh + 2)).next := by
              have := hscc _ hm
              simp only [InScope] at this
              omega
            refine ⟨Event.create fresh :: Event.stash fresh ⟨some f, fresh + 1⟩ ::
              Event.resume fresh :: l1,
              l2 ++ Event.destroy fresh ::
                (run f k rest
                  (run fresh ⟨some f, fresh + 1⟩ child (fresh + 2)).next).tr,
              by rw [heq]; simp, by simp [h1], ?_, ?_⟩
            · intro hx
              rcases List.mem_cons.mp hx with hh | hx
              · exact Event.noConfusion hh
              rcases List.mem_cons.mp hx with hh | hx
              · exact Event.noConfusion hh
              rcases List.mem_cons.mp hx with hh | hx
              · exact Event.noConfusion hh
              · exact h2 hx
            · intro hx
              rcases List.mem_append.mp hx with hx | hx
              · exact h3 hx
              rcases List.mem_cons.mp hx with hh | hx
              · injection hh with hh2; omega
              · have := hscr _ hx
                simp only [InScope] at this
                omega
          rcases List.mem_cons.mp hm with hh | hm
          · obtain rfl : cid = fresh := by injection hh
            refine ⟨Event.create cid :: Event.stash cid ⟨some f, cid + 1⟩ ::
              Event.resume cid ::
                (run cid ⟨some f, cid + 1⟩ child (cid + 2)).tr,
              (run f k rest
                (run cid ⟨some f, cid + 1⟩ child (cid + 2)).next).tr,
              by simp, ?_, ?_, hnotrr⟩
            · have := run_finished_self cid ⟨some f, cid + 1⟩ child (cid + 2)
                htc
              simp [this]
            · intro hx
              rcases List.mem_cons.mp hx with hh2 | hx
              · exact Event.noConfusion hh2
              rcases List.mem_cons.mp hx with hh2 | hx
              · exact Event.noConfusion hh2
              rcases List.mem_cons.mp hx with hh2 | hx
              · exact Event.noConfusion hh2
              · exact hnotrc hx
          · obtain ⟨l1, l2, heq, h1, h2, h3⟩ :=
              ihr f k (run fresh ⟨some f, fresh + 1⟩ child (fresh + 2)).next
                hk ht cid hm
            have hcid :
                (run fresh ⟨some f, fresh + 1⟩ child (fresh + 2)).next ≤ cid := by
              have := hscr _ hm
              simp only [InScope] at this
              omega
            refine ⟨Event.create fresh :: Event.stash fresh ⟨some f, fresh + 1⟩ ::
              Event.resume fresh ::
                (run fresh ⟨some f, fresh + 1⟩ child (fresh + 2)).tr ++
                  Event.destroy fresh :: l1,
              l2, by rw [heq]; simp, by simp [h1], ?_, h3⟩
            intro hx
            rcases List.mem_cons.mp hx with hh | hx
            · exact Event.noConfusion hh
            rcases List.mem_cons.mp hx with hh | hx
            · exact Event.noConfusion hh
            rcases List.mem_cons.mp hx with hh | hx
            · exact Event.noConfusion hh
            rcases List.mem_append.mp hx with hx | hx
            · have := hscc _ hx
              simp only [InScope] at this
              omega
            rcases List.mem_cons.mp hx with hh | hx
            · injection hh with hh2; omega
            · exact h2 hx

/-- A fault-free body never terminates the process. -/
theorem faultFree_term (b : Body) (hf : b.faultFree = true) :
    (run 0 ⟨none, 1⟩ b 2).term = false := by
  rw [run_term_faultFree, hf]
  rfl

/-- Shape of `BlockOn` when the chain completes. -/
theorem BlockOn_of_term_false (b : Body)
    (ht : (run 0 ⟨none, 1⟩ b 2).term = false) :
    BlockOn b = Event.create 0 :: Event.stash 0 ⟨none, 1⟩ ::
      Event.resume 0 ::
        (run 0 ⟨none, 1⟩ b 2).tr ++ [Event.wait 1, Event.destroy 0] := by
  simp [BlockOn, ht]

/-- Shape of `BlockOn` when the chain faults. -/
theorem BlockOn_of_term_true (b : Body)
    (ht : (run 0 ⟨none, 1⟩ b 2).term = true) :
    BlockOn b = Event.create 0 :: Event.stash 0 ⟨none, 1⟩ ::
      Event.resume 0 :: (run 0 ⟨none, 1⟩ b 2).tr := by
  simp [BlockOn, ht]

/-- Every created frame also has a continuation stashed into it. -/
theorem run_create_stash (f : Nat) (k : Continuation) (b : Body)
    (fresh : Nat) :
    ∀ cid, Event.create cid ∈ (run f k b fresh).tr →
      ∃ k2, Event.stash cid k2 ∈ (run f k b fresh).tr := by
  induction b generalizing f k fresh with
  | ret =>
      intro cid hm
      rw [run_ret] at hm
      rcases List.mem_cons.mp hm with hh | hm
      · exact Event.noConfusion hh
      · cases hcc : k.caller_continuation <;>
          simp [Continuation.Resume, hcc] at hm
  | fault =>
      intro cid hm
      rw [run_fault] at hm
      simp at hm
  | act l rest ih =>
      intro cid hm
      rw [run_act] at hm ⊢
      dsimp only at hm ⊢
      rcases List.mem_cons.mp hm with hh | hm
      · exact Event.noConfusion hh
      · obtain ⟨k2, hk2⟩ := ih f k fresh cid hm
        exact ⟨k2, List.mem_cons_of_mem _ hk2⟩
  | await child rest ihc ihr =>
      intro cid hm
      cases htc : (run fresh ⟨some f, fresh + 1⟩ child (fresh + 2)).term with
      | true =>
          rw [run_await_true f k child rest fresh htc] at hm ⊢
          dsimp only at hm ⊢
          rcases List.mem_cons.mp hm with hh | hm
          · obtain rfl : cid = fresh := by injection hh
            exact ⟨⟨some f, cid + 1⟩, by simp⟩
          rcases List.mem_cons.mp hm with hh | hm
          · exact Event.noConfusion hh
          rcases List.mem_cons.mp hm with hh | hm
          · exact Event.noConfusion hh
          · obtain ⟨k2, hk2⟩ := ihc fresh ⟨some f, fresh + 1⟩ (fresh + 2)
              cid hm
            exact ⟨k2, by simp [hk2]⟩
      | false =>
          rw [run_await_false f k child rest fresh htc] at hm ⊢
          dsimp only at hm ⊢
          rcases List.mem_cons.mp hm with hh | hm
          · obtain rfl : cid = fresh := by injection hh
            exact ⟨⟨some f, cid + 1⟩, by simp⟩
          rcases List.mem_cons.mp hm with hh | hm
          · exact Event.noConfusion hh
          rcases List.mem_cons.mp hm with hh | hm
          · exact Event.noConfusion hh
          rcases List.mem_append.mp hm with hm | hm
          · obtain ⟨k2, hk2⟩ := ihc fresh ⟨some f, fresh + 1⟩ (fresh + 2)
              cid hm
            exact ⟨k2, by simp [hk2]⟩
          rcases List.mem_cons.mp hm with hh | hm
          · exact Event.noConfusion hh
          · obtain ⟨k2, hk2⟩ := ihr f k
              (run fresh ⟨some f, fresh + 1⟩ child (fresh + 2)).next cid hm
            exact ⟨k2, by simp [hk2]⟩

/-- In a completed execution every created frame is also destroyed (by the
awaiting frame's co_await full-expression ending). -/
theorem run_create_destroy (f : Nat) (k : Continuation) (b : Body)
    (fresh : Nat) (ht : (run f k b fresh).term = false) :
    ∀ cid, Event.create cid ∈ (run f k b fresh).tr →
      Event.destroy cid ∈ (run f k b fresh).tr := by
  induction b generalizing f k fresh with
  | ret =>
      intro cid hm
      rw [run_ret] at hm
      rcases List.mem_cons.mp hm with hh | hm
      · exact Event.noConfusion hh
      · cases hcc : k.caller_continuation <;>
          simp [Continuation.Resume, hcc] at hm
  | fault => rw [run_fault] at ht; simp at ht
  | act l rest ih =>
      intro cid hm
      rw [run_act] at ht hm ⊢
      dsimp only at ht hm ⊢
      rcases List.mem_cons.mp hm with hh | hm
      · exact Event.noConfusion hh
      · exact List.mem_cons_of_mem _ (ih f k fresh ht cid hm)
  | await child rest ihc ihr =>
      intro cid hm
      cases htc : (run fresh ⟨some f, fresh + 1⟩ child (fresh + 2)).term with
      | true => rw [run_await_true f k child rest fresh htc] at ht; simp at ht
      | false =>
          rw [run_await_false f k child rest fresh htc] at ht hm ⊢
          dsimp only at ht hm ⊢
          rcases List.mem_cons.mp hm with hh | hm
          · obtain rfl : cid = fresh := by injection hh
            simp
          rcases List.mem_cons.mp hm with hh | hm
          · exact Event.noConfusion hh
          rcases List.mem_cons.mp hm with hh | hm
          · exact Event.noConfusion hh
          rcases List.mem_append.mp hm with hm | hm
          · have := ihc fresh ⟨some f, fresh + 1⟩ (fresh + 2) htc cid hm
            simp [this]
          rcases List.mem_cons.mp hm with hh | hm
          · exact Event.noConfusion hh
          · have := ihr f k
              (run fresh ⟨some f, fresh + 1⟩ child (fresh + 2)).next ht cid hm
            simp [this]

/-- A terminated execution performed none of the frame's own continuation
signalling: the frame did not finish, its stashed notification was not
notified, and no frame below the running one (in particular the frame's own
caller) was resumed. -/
theorem run_terminated_no_signal (b : Body) :
    ∀ (f : Nat) (k : Continuation) (fresh : Nat), k.done = f + 1 →
      f + 1 < fresh → (run f k b fresh).term = true →
        Event.finished f ∉ (run f k b fresh).tr ∧
        Event.notify (f + 1) ∉ (run f k b fresh).tr ∧
        ∀ p, p < f → Event.resume p ∉ (run f k b fresh).tr := by
  induction b with
  | ret =>
      intro f k fresh hk hf ht
      rw [run_ret] at ht
      simp at ht
  | fault =>
      intro f k fresh hk hf ht
      rw [run_fault]
      refine ⟨by simp, by simp, ?_⟩
      intro p hp
      simp
  | act l rest ih =>
      intro f k fresh hk hf ht
      rw [run_act] at ht ⊢
      dsimp only at ht ⊢
      obtain ⟨h1, h2, h3⟩ := ih f k fresh hk hf ht
      refine ⟨?_, ?_, ?_⟩
      · intro hm
        rcases List.mem_cons.mp hm with hh | hm
        · exact Event.noConfusion hh
        · exact h1 hm
      · intro hm
        rcases List.mem_cons.mp hm with hh | hm
        · exact Event.noConfusion hh
        · exact h2 hm
      · intro p hp hm
        rcases List.mem_cons.mp hm with hh | hm
        · exact Event.noConfusion hh
        · exact h3 p hp hm
  | await child rest ihc ihr =>
      intro f k fresh hk hf ht
      have hnc := run_next_le fresh ⟨some f, fresh + 1⟩ child (fresh + 2)
      have hscc := run_scope fresh ⟨some f, fresh + 1⟩ child (fresh + 2) rfl
      have hfin_trc : Event.finished f ∉
          (run fresh ⟨some f, fresh + 1⟩ child (fresh + 2)).tr := by
        intro hx
        have := hscc _ hx
        simp only [InScope] at this
        omega
      have hnot_trc : Event.notify (f + 1) ∉
          (run fresh ⟨some f, fresh + 1⟩ child (fresh + 2)).tr := by
        intro hx
        have := hscc _ hx
        simp only [InScope] at this
        omega
      have hres_trc : ∀ p, p < f → Event.resume p ∉
          (run fresh ⟨some f, fresh + 1⟩ child (fresh + 2)).tr := by
        intro p hp hx
        have := hscc _ hx
        simp only [InScope, Option.some.injEq] at this
        omega
      cases htc : (run fresh ⟨some f, fresh + 1⟩ child (fresh + 2)).term with
      | true =>
          rw [run_await_true f k child rest fresh htc]
          dsimp only
          refine ⟨?_, ?_, ?_⟩
          · intro hm
            rcases List.mem_cons.mp hm with hh | hm
            · exact Event.noConfusion hh
            rcases List.mem_cons.mp hm with hh | hm
            · exact Event.noConfusion hh
            rcases List.mem_cons.mp hm with hh | hm
            · exact Event.noConfusion hh
            · exact hfin_trc hm
          · intro hm
            rcases List.mem_cons.mp hm with hh | hm
            · exact Event.noConfusion hh
            rcases List.mem_cons.mp hm with hh | hm
            · exact Event.noConfusion hh
            rcases List.mem_cons.mp hm with hh | hm
            · exact Event.noConfusion hh
            · exact hnot_trc hm
          · intro p hp hm
            rcases List.mem_cons.mp hm with hh | hm
            · exact Event.noConfusion hh
            rcases List.mem_cons.mp hm with hh | hm
            · exact Event.noConfusion hh
            rcases List.mem_cons.mp hm with hh | hm
            · injection hh with hh2; omega
            · exact hres_trc p hp hm
      | false =>
          rw [run_await_false f k child rest fresh htc] at ht ⊢
          dsimp only at ht ⊢
          obtain ⟨h1, h2, h3⟩ := ihr f k
            (run fresh ⟨some f, fresh + 1⟩ child (fresh + 2)).next hk
            (by omega) ht
          refine ⟨?_, ?_, ?_⟩
          · intro hm
            rcases List.mem_cons.mp hm with hh | hm
            · exact Event.noConfusion hh
            rcases List.mem_cons.mp hm with hh | hm
            · exact Event.noConfusion hh
            rcases List.mem_cons.mp hm with hh | hm
            · exact Event.noConfusion hh
            rcases List.mem_append.mp hm with hm | hm
            · exact hfin_trc hm
            rcases List.mem_cons.mp hm with hh | hm
            · exact Event.noConfusion hh
            · exact h1 hm
          · intro hm
            rcases List.mem_cons.mp hm with hh | hm
            · exact Event.noConfusion hh
            rcases List.mem_cons.mp hm with hh | hm
            · exact Event.noConfusion hh
            rcases List.mem_cons.mp hm with hh | hm
            · exact Event.noConfusion hh
            rcases List.mem_append.mp hm with hm | hm
            · exact hnot_trc hm
            rcases List.mem_cons.mp hm with hh | hm
            · exact Event.noConfusion hh
            · exact h2 hm
          · intro p hp hm
            rcases List.mem_cons.mp hm with hh | hm
            · exact Event.noConfusion hh
            rcases List.mem_cons.mp hm with hh | hm
            · exact Event.noConfusion hh
            rcases List.mem_cons.mp hm with hh | hm
            · injection hh with hh2; omega
            rcases List.mem_append.mp hm with hm | hm
            · exact hres_trc p hp hm
            rcases List.mem_cons.mp hm with hh | hm
            · exact Event.noConfusion hh
            · exact h3 p hp hm

/-- The bridge trace is the protocol head, the root frame's execution, and a
tail consisting only of the bridge's wait and the root handle's destroy. -/
theorem BlockOn_split (b : Body) :
    ∃ tail, BlockOn b = Event.create 0 :: Event.stash 0 ⟨none, 1⟩ ::
        Event.resume 0 :: ((run 0 ⟨none, 1⟩ b 2).tr ++ tail) ∧
      ∀ e ∈ tail, e = Event.wait 1 ∨ e = Event.destroy 0 := by
  cases ht : (run 0 ⟨none, 1⟩ b 2).term with
  | true =>
      refine ⟨[], ?_, by simp⟩
      rw [BlockOn_of_term_true b ht]
      simp
  | false =>
      refine ⟨[Event.wait 1, Event.destroy 0], ?_, ?_⟩
      · rw [BlockOn_of_term_false b ht]
        simp
      · intro e he
        rcases List.mem_cons.mp he with rfl | he
        · exact Or.inl rfl
        rcases List.mem_cons.mp he with rfl | he
        · exact Or.inr rfl
        · simp at he

/-- Every continuation stash in a bridge trace — the bridge's own and every
await composition's — occurs in the protocol block
`create cid, stash cid k, resume cid`, with no event of frame `cid` before
it. -/
theorem BlockOn_stash_decomp (b : Body) (cid : Nat) (k : Continuation)
    (hm : Event.stash cid k ∈ BlockOn b) :
    ∃ l1 l2, BlockOn b = l1 ++ Event.create cid :: Event.stash cid k ::
        Event.resume cid :: l2 ∧
      ∀ e ∈ l1, touches cid e = false := by
  obtain ⟨tail, hsh, htail⟩ := BlockOn_split b
  rw [hsh] at hm ⊢
  have hsc := run_scope 0 ⟨none, 1⟩ b 2 rfl
  rcases List.mem_cons.mp hm with hh | hm
  · exact Event.noConfusion hh
  rcases List.mem_cons.mp hm with hh | hm
  · obtain ⟨rfl, rfl⟩ : cid = 0 ∧ k = (⟨none, 1⟩ : Continuation) := by
      injection hh with h1 h2; exact ⟨h1, h2⟩
    exact ⟨[], (run 0 ⟨none, 1⟩ b 2).tr ++ tail, rfl, by simp⟩
  rcases List.mem_cons.mp hm with hh | hm
  · exact Event.noConfusion hh
  rcases List.mem_append.mp hm with hm | hm
  · obtain ⟨l1, l2, heq, h1, h2⟩ :=
      run_stash_decomp 0 ⟨none, 1⟩ b 2 rfl (by omega) cid k hm
    have hcid : 2 ≤ cid := by
      have := hsc _ hm
      simp only [InScope] at this
      omega
    refine ⟨Event.create 0 :: Event.stash 0 ⟨none, 1⟩ ::
      Event.resume 0 :: l1, l2 ++ tail, by rw [heq]; simp, ?_⟩
    intro e he
    rcases List.mem_cons.mp he with rfl | he
    · simp only [touches, decide_eq_false_iff_not]; omega
    rcases List.mem_cons.mp he with rfl | he
    · simp only [touches, decide_eq_false_iff_not]; omega
    rcases List.mem_cons.mp he with rfl | he
    · simp only [touches, decide_eq_false_iff_not]; omega
    · exact h1 e he
  · rcases htail _ hm with hh | hh <;> exact absurd hh (by simp)

/-- Every created frame in a bridge trace also gets a continuation stashed
(the root by the bridge itself, children by their awaiters). -/
theorem BlockOn_create_stash (b : Body) (cid : Nat)
    (hm : Event.create cid ∈ BlockOn b) :
    ∃ k, Event.stash cid k ∈ BlockOn b := by
  obtain ⟨tail, hsh, htail⟩ := BlockOn_split b
  rw [hsh] at hm ⊢
  rcases List.mem_cons.mp hm with hh | hm
  · obtain rfl : cid = 0 := by injection hh
    exact ⟨⟨none, 1⟩, by simp⟩
  rcases List.mem_cons.mp hm with hh | hm
  · exact Event.noConfusion hh
  rcases List.mem_cons.mp hm with hh | hm
  · exact Event.noConfusion hh
  rcases List.mem_append.mp hm with hm | hm
  · obtain ⟨k2, hk2⟩ := run_create_stash 0 ⟨none, 1⟩ b 2 cid hm
    exact ⟨k2, by simp [hk2]⟩
  · rcases htail _ hm with hh | hh <;> exact absurd hh (by simp)

/-- A completed bridge performs exactly one wait, on the bridge's own
notification. -/
theorem BlockOn_one_wait (b : Body)
    (ht : (run 0 ⟨none, 1⟩ b 2).term = false) :
    List.countP isWait (BlockOn b) = 1 ∧
    ∀ s, Event.wait s ∈ BlockOn b → s = 1 := by
  have h0 : List.countP isWait (run 0 ⟨none, 1⟩ b 2).tr = 0 := by
    rw [List.countP_eq_zero]
    intro e he
    cases e <;> simp [isWait]
    exact run_scope 0 ⟨none, 1⟩ b 2 rfl _ he
  constructor
  · rw [BlockOn_of_term_false b ht]
    simp [List.countP_cons, List.countP_append, isWait, h0]
  · intro s hm
    rw [BlockOn_of_term_false b ht] at hm
    rcases List.mem_cons.mp hm with hh | hm
    · exact Event.noConfusion hh
    rcases List.mem_cons.mp hm with hh | hm
    · exact Event.noConfusion hh
    rcases List.mem_cons.mp hm with hh | hm
    · exact Event.noConfusion hh
    rcases List.mem_append.mp hm with hm | hm
    · exact absurd (run_scope 0 ⟨none, 1⟩ b 2 rfl _ hm) id
    rcases List.mem_cons.mp hm with hh | hm
    · injection hh
    rcases List.mem_cons.mp hm with hh | hm
    · exact Event.noConfusion hh
    · simp at hm

/-- C1: for every await composition the awaited frame's continuation slot —
the caller's resume capability paired with a completion-signal reference —
is written (`stash cid k`) strictly before the awaited frame is resumed
(`resume cid` is the immediately following event), and the awaited frame was
never resumed and had never finished before that write, so it can never
finish and attempt to resume a not-yet-stashed caller: stash continuation,
then resume callee, and only then may the callee finish. -/
theorem C1_stash_then_resume_then_finish (b : Body) (cid : Nat)
    (k : Continuation) (hm : Event.stash cid k ∈ BlockOn b) :
    ∃ l1 l2, BlockOn b = l1 ++ Event.stash cid k ::
        Event.resume cid :: l2 ∧
      Event.resume cid ∉ l1 ∧ Event.finished cid ∉ l1 := by
  obtain ⟨l1, l2, heq, h1⟩ := BlockOn_stash_decomp b cid k hm
  refine ⟨l1 ++ [Event.create cid], l2, by rw [heq]; simp, ?_, ?_⟩
  · intro hx
    rcases List.mem_append.mp hx with hx | hx
    · have := h1 _ hx
      simp [touches] at this
    · simp at hx
  · intro hx
    rcases List.mem_append.mp hx with hx | hx
    · have := h1 _ hx
      simp [touches] at this
    · simp at hx

/-- C2: the blocking bridge installs a continuation slot with no caller
capability and a fresh completion signal, resumes the Task's frame, and its
single wait — it returns exactly once — comes after the bridge signal was
notified and after every frame of the Task's entire transitive await-chain
has finished. -/
theorem C2_bridge_blocks_until_chain_done (b : Body)
    (hf : b.faultFree = true) :
    ∃ l, BlockOn b = Event.create 0 :: Event.stash 0 ⟨none, 1⟩ ::
        Event.resume 0 :: l ++ [Event.wait 1, Event.destroy 0] ∧
      List.countP isWait (BlockOn b) = 1 ∧
      Event.notify 1 ∈ l ∧
      ∀ cid, Event.create cid ∈ BlockOn b → Event.finished cid ∈ l := by
  have ht := faultFree_term b hf
  have hsh := BlockOn_of_term_false b ht
  refine ⟨(run 0 ⟨none, 1⟩ b 2).tr, hsh, (BlockOn_one_wait b ht).1, ?_, ?_⟩
  · obtain ⟨l, hl⟩ := run_Resume_suffix 0 ⟨none, 1⟩ b 2 ht
    rw [hl]
    simp [Continuation.Resume]
  · intro cid hm
    rw [hsh] at hm
    rcases List.mem_cons.mp hm with hh | hm
    · obtain rfl : cid = 0 := by injection hh
      exact run_finished_self 0 ⟨none, 1⟩ b 2 ht
    rcases List.mem_cons.mp hm with hh | hm
    · exact Event.noConfusion hh
    rcases List.mem_cons.mp hm with hh | hm
    · exact Event.noConfusion hh
    rcases List.mem_append.mp hm with hm | hm
    · exact run_create_finished 0 ⟨none, 1⟩ b 2 ht cid hm
    rcases List.mem_cons.mp hm with hh | hm
    · exact Event.noConfusion hh
    rcases List.mem_cons.mp hm with hh | hm
    · exact Event.noConfusion hh
    · simp at hm

/-- C3: when any frame's body runs to completion (`finished g`), what
happens next is exactly the `Resume` of the continuation that was stashed
into that frame earlier in the trace: the completion signal is notified
first, unconditionally, and then the recorded caller — and nothing else —
is resumed if and only if one was recorded. -/
theorem C3_completion_reads_slot_notify_then_resume (b : Body)
    (l1 : List Event) (g : Nat) (l2 : List Event)
    (heq : BlockOn b = l1 ++ Event.finished g :: l2) :
    ∃ k l3, Event.stash g k ∈ l1 ∧ l2 = k.Resume ++ l3 ∧
      k.Resume.head? = some (Event.notify k.done) ∧
      ∀ h, Event.resume h ∈ k.Resume ↔ k.caller_continuation = some h := by
  have hres : ∀ k : Continuation,
      k.Resume.head? = some (Event.notify k.done) ∧
      ∀ h, Event.resume h ∈ k.Resume ↔ k.caller_continuation = some h := by
    intro k
    refine ⟨rfl, ?_⟩
    intro h
    cases hc : k.caller_continuation <;>
      simp [Continuation.Resume, hc, eq_comm]
  obtain ⟨tail, hsh, htail⟩ := BlockOn_split b
  rw [hsh] at heq
  rcases split_cons heq with ⟨rfl, h2, rfl⟩ | ⟨m, rfl, hm⟩
  · exact Event.noConfusion h2
  rcases split_cons hm with ⟨rfl, h2, rfl⟩ | ⟨m2, rfl, hm2⟩
  · exact Event.noConfusion h2
  rcases split_cons hm2 with ⟨rfl, h2, rfl⟩ | ⟨m3, rfl, hm3⟩
  · exact Event.noConfusion h2
  rcases split_append hm3 with ⟨m4, hm4, hl2⟩ | ⟨m4, hm4, hl1⟩
  · rcases run_finished_Resume 0 ⟨none, 1⟩ b 2 m3 g m4 hm4 with
      ⟨hg0, l3, h3⟩ | ⟨k2, l3, h3, h4⟩
    · refine ⟨⟨none, 1⟩, l3 ++ tail, ?_, ?_, (hres _).1, (hres _).2⟩
      · rw [hg0]; simp
      · rw [hl2, h3]; simp
    · refine ⟨k2, l3 ++ tail, by simp [h3], ?_, (hres _).1, (hres _).2⟩
      rw [hl2, h4]; simp
  · exfalso
    have : Event.finished g ∈ tail := by
      rw [hm4]
      exact List.mem_append_right _ (List.mem_cons_self _ _)
    rcases htail _ this with hh | hh <;> exact Event.noConfusion hh

/-- C4: resumption order is strictly the mirror image of suspension order —
last awaited, first resumed.  The `mirror` checker accepts every completed
bridge trace: whenever a frame finishes it is the most recently awaited
pending frame, and its completion immediately notifies its own signal and
resumes precisely its awaiter's suspension point, never before its body
fully finished.  Concretely, for A awaits B awaits C (frames 0, 2, 4), the
cascade is C-signals-and-resumes-B's-point, B-finishes-and-resumes-A's
point, A-finishes-and-signals-the-bridge. -/
theorem C4_resumption_mirrors_suspension (b : Body)
    (hf : b.faultFree = true) :
    mirror [] (BlockOn b) = true ∧
    BlockOn (Body.await (Body.await Body.ret Body.ret) Body.ret) =
      [Event.create 0, Event.stash 0 ⟨none, 1⟩, Event.resume 0,
       Event.create 2, Event.stash 2 ⟨some 0, 3⟩, Event.resume 2,
       Event.create 4, Event.stash 4 ⟨some 2, 5⟩, Event.resume 4,
       Event.finished 4, Event.notify 5, Event.resume 2,
       Event.destroy 4,
       Event.finished 2, Event.notify 3, Event.resume 0,
       Event.destroy 2,
       Event.finished 0, Event.notify 1,
       Event.wait 1, Event.destroy 0] := by
  constructor
  · have ht := faultFree_term b hf
    have h1 : mirror [] (BlockOn b) =
        mirror [] ((run 0 ⟨none, 1⟩ b 2).tr ++
          [Event.wait 1, Event.destroy 0]) := by
      rw [BlockOn_of_term_false b ht]
      rfl
    rw [h1, mirror_run_none 0 ⟨none, 1⟩ b 2 rfl rfl ht]
    rfl
  · rfl

/-- C5: invoking a Task-returning function allocates the frame in state
"not yet started" (`initial_suspend` is suspend-always): no event of the
frame — no body step, no completion — precedes its creation, and between
creation and the frame's first resume only the continuation stash happens,
so the body begins only when the frame is explicitly resumed. -/
theorem C5_lazy_start (b : Body) (cid : Nat)
    (hm : Event.create cid ∈ BlockOn b) :
    promise_type.initial_suspend = SuspendPolicy.always ∧
    ∃ l1 k l2, BlockOn b = l1 ++ Event.create cid :: Event.stash cid k ::
        Event.resume cid :: l2 ∧
      ∀ e ∈ l1, touches cid e = false := by
  refine ⟨rfl, ?_⟩
  obtain ⟨k, hk⟩ := BlockOn_create_stash b cid hm
  obtain ⟨l1, l2, heq, h1⟩ := BlockOn_stash_decomp b cid k hk
  exact ⟨l1, k, l2, heq, h1⟩

/-- C6: move construction transfers exclusive ownership of the frame — the
moved-from handle references no frame afterwards, its destruction performs
nothing, and destroying both the moved-to and the moved-from handle destroys
the underlying frame exactly once. -/
theorem C6_move_transfers_ownership (hdl : Nat) :
    (Task.moveConstruct ⟨some hdl⟩).2.handle_ = none ∧
    (Task.moveConstruct ⟨some hdl⟩).2.destructor = [] ∧
    (Task.moveConstruct ⟨some hdl⟩).1.handle_ = some hdl ∧
    (Task.moveConstruct ⟨some hdl⟩).1.destructor ++
      (Task.moveConstruct ⟨some hdl⟩).2.destructor = [Event.destroy hdl] :=
  ⟨rfl, rfl, rfl, rfl⟩

/-- C7: an unhandled fault inside a frame's body terminates the process
(`unhandled_exception` is `std::terminate`) before any continuation
signalling occurs: the trace ends at the `terminate`, the frame never
finished, its completion signal is never notified, and its caller is never
resumed — so callers never observe the faulted callee as finished. -/
theorem C7_fault_terminates_before_signalling (b : Body) (f : Nat)
    (k : Continuation) (fresh : Nat) (hk : k.done = f + 1)
    (hfr : f + 1 < fresh)
    (hcall : ∀ p, k.caller_continuation = some p → p < f)
    (ht : (run f k b fresh).term = true) :
    promise_type.unhandled_exception = Event.terminate ∧
    (∃ l, (run f k b fresh).tr = l ++ [Event.terminate]) ∧
    Event.finished f ∉ (run f k b fresh).tr ∧
    Event.notify k.done ∉ (run f k b fresh).tr ∧
    ∀ p, k.caller_continuation = some p →
      Event.resume p ∉ (run f k b fresh).tr := by
  obtain ⟨h1, h2, h3⟩ := run_terminated_no_signal b f k fresh hk hfr ht
  exact ⟨rfl, run_terminate_last f k b fresh ht, h1, hk ▸ h2,
    fun p hp => h3 p (hcall p hp)⟩

/-- C8 fails as stated: intermediate levels of a chain DO hold an
independent completion signal.  In the chain "top-level task awaits one
child" (frames 0 and 2), the intermediate await stashes the continuation
⟨some 0, 3⟩ into the child: its completion-signal reference is the
`Awaiter`'s own `done_` notification (id 3), distinct from the bridge's
notification (id 1), and both get notified — two completion signals are
notified in a single chain, not exactly one. -/
theorem C8_counterexample :
    Event.stash 2 ⟨some 0, 3⟩ ∈ BlockOn (Body.await Body.ret Body.ret) ∧
    Event.notify 3 ∈ BlockOn (Body.await Body.ret Body.ret) ∧
    Event.notify 1 ∈ BlockOn (Body.await Body.ret Body.ret) ∧
    List.countP isNotify (BlockOn (Body.await Body.ret Body.ret)) = 2 := by
  decide

/-- C8 (amended): every chain of composed Tasks has exactly one completion
signal that is ever waited on, owned by the outermost blocking driver (one
wait event, on the bridge's notification); each intermediate level stashes a
continuation that chains a resume-my-caller action together with a
notification of its own that is notified but never waited on — no
intermediate level performs an independent wait. -/
theorem C8_one_waited_signal (b : Body) (hf : b.faultFree = true) :
    List.countP isWait (BlockOn b) = 1 ∧
    (∀ s, Event.wait s ∈ BlockOn b → s = 1) ∧
    ∀ cid k, Event.stash cid k ∈ BlockOn b → cid ≠ 0 →
      (∃ p, k.caller_continuation = some p) ∧
      Event.wait k.done ∉ BlockOn b := by
  have ht := faultFree_term b hf
  obtain ⟨hw1, hw2⟩ := BlockOn_one_wait b ht
  refine ⟨hw1, hw2, ?_⟩
  intro cid k hm hcid0
  obtain ⟨tail, hsh, htail⟩ := BlockOn_split b
  rw [hsh] at hm
  have hin : Event.stash cid k ∈ (run 0 ⟨none, 1⟩ b 2).tr := by
    rcases List.mem_cons.mp hm with hh | hm
    · exact Event.noConfusion hh
    rcases List.mem_cons.mp hm with hh | hm
    · exact absurd (by injection hh) hcid0
    rcases List.mem_cons.mp hm with hh | hm
    · exact Event.noConfusion hh
    rcases List.mem_append.mp hm with hm | hm
    · exact hm
    · rcases htail _ hm with hh | hh <;> exact absurd hh (by simp)
  have hsc := run_scope 0 ⟨none, 1⟩ b 2 rfl _ hin
  simp only [InScope] at hsc
  obtain ⟨hlo, hhi, hdone, p, hp, hrange⟩ := hsc
  refine ⟨⟨p, hp⟩, ?_⟩
  intro hw
  have := hw2 _ hw
  omega

/-- C9: in a completed execution every created frame is destroyed exactly
once, and only after the frame has fully finished its body; a frame never
destroys itself on completion, because `final_awaiter::await_ready` is
false, so completion always suspends at the final suspension point and the
destroy comes later, from the owning Task handle's destruction. -/
theorem C9_destroy_once_after_finish (b : Body) (cid : Nat)
    (hf : b.faultFree = true) (hm : Event.create cid ∈ BlockOn b) :
    final_awaiter.await_ready = false ∧
    ∃ l1 l2, BlockOn b = l1 ++ Event.destroy cid :: l2 ∧
      Event.finished cid ∈ l1 ∧
      Event.destroy cid ∉ l1 ∧ Event.destroy cid ∉ l2 := by
  have ht := faultFree_term b hf
  have hsh := BlockOn_of_term_false b ht
  have hnod : ∀ g, Event.destroy g ∈ (run 0 ⟨none, 1⟩ b 2).tr → 2 ≤ g := by
    intro g hg
    have := run_scope 0 ⟨none, 1⟩ b 2 rfl _ hg
    simp only [InScope] at this
    omega
  refine ⟨rfl, ?_⟩
  rw [hsh] at hm
  rcases List.mem_cons.mp hm with hh | hm
  · obtain rfl : cid = 0 := by injection hh
    refine ⟨Event.create 0 :: Event.stash 0 ⟨none, 1⟩ :: Event.resume 0 ::
      ((run 0 ⟨none, 1⟩ b 2).tr ++ [Event.wait 1]), [], ?_, ?_, ?_, by simp⟩
    · rw [hsh]; simp
    · have := run_finished_self 0 ⟨none, 1⟩ b 2 ht
      simp [this]
    · intro hx
      rcases List.mem_cons.mp hx with hh2 | hx
      · exact Event.noConfusion hh2
      rcases List.mem_cons.mp hx with hh2 | hx
      · exact Event.noConfusion hh2
      rcases List.mem_cons.mp hx with hh2 | hx
      · exact Event.noConfusion hh2
      rcases List.mem_append.mp hx with hx | hx
      · have := hnod 0 hx; omega
      · simp at hx
  rcases List.mem_cons.mp hm with hh | hm
  · exact Event.noConfusion hh
  rcases List.mem_cons.mp hm with hh | hm
  · exact Event.noConfusion hh
  rcases List.mem_append.mp hm with hm | hm
  · have hcid : 2 ≤ cid := by
      have := run_scope 0 ⟨none, 1⟩ b 2 rfl _ hm
      simp only [InScope] at this
      omega
    have hd := run_create_destroy 0 ⟨none, 1⟩ b 2 ht cid hm
    obtain ⟨m1, m2, heq, h1, h2, h3⟩ :=
      run_destroy 0 ⟨none, 1⟩ b 2 rfl ht cid hd
    refine ⟨Event.create 0 :: Event.stash 0 ⟨none, 1⟩ :: Event.resume 0 :: m1,
      m2 ++ [Event.wait 1, Event.destroy 0], ?_, by simp [h1], ?_, ?_⟩
    · rw [hsh, heq]; simp
    · intro hx
      rcases List.mem_cons.mp hx with hh2 | hx
      · exact Event.noConfusion hh2
      rcases List.mem_cons.mp hx with hh2 | hx
      · exact Event.noConfusion hh2
      rcases List.mem_cons.mp hx with hh2 | hx
      · exact Event.noConfusion hh2
      · exact h2 hx
    · intro hx
      rcases List.mem_append.mp hx with hx | hx
      · exact h3 hx
      rcases List.mem_cons.mp hx with hh2 | hx
      · exact Event.noConfusion hh2
      rcases List.mem_cons.mp hx with hh2 | hx
      · injection hh2 with hh3; omega
      · simp at hx
  rcases List.mem_cons.mp hm with hh | hm
  · exact Event.noConfusion hh
  rcases List.mem_cons.mp hm with hh | hm
  · exact Event.noConfusion hh
  · simp at hm

/-- C10: awaiting a Task never takes a fast path — `Awaiter::await_ready`
returns false unconditionally, so for every frame the full
stash-continuation-then-resume-callee protocol executes.  Concretely, even
when the awaited Task completes immediately (body is a bare `co_return`),
the bridge trace of "top-level task awaits one trivial child" still contains
the full create/stash/resume protocol block for the child. -/
theorem C10_await_never_fast_path (b : Body) (cid : Nat)
    (hm : Event.create cid ∈ BlockOn b) :
    Awaiter.await_ready = false ∧
    (∃ l1 k l2, BlockOn b = l1 ++ Event.create cid :: Event.stash cid k ::
        Event.resume cid :: l2) ∧
    BlockOn (Body.await Body.ret Body.ret) =
      [Event.create 0, Event.stash 0 ⟨none, 1⟩, Event.resume 0,
       Event.create 2, Event.stash 2 ⟨some 0, 3⟩, Event.resume 2,
       Event.finished 2, Event.notify 3, Event.resume 0,
       Event.destroy 2,
       Event.finished 0, Event.notify 1,
       Event.wait 1, Event.destroy 0] := by
  refine ⟨rfl, ?_, rfl⟩
  obtain ⟨k, hk⟩ := BlockOn_create_stash b cid hm
  obtain ⟨l1, l2, heq, h1⟩ := BlockOn_stash_decomp b cid k hk
  exact ⟨l1, k, l2, heq⟩

/-- Witness for C1 at the chain "top-level task awaits one child". -/
theorem C1_stash_then_resume_then_finish_witness :
    Event.stash 2 ⟨some 0, 3⟩ ∈ BlockOn (Body.await Body.ret Body.ret) ∧
    ∃ l1 l2, BlockOn (Body.await Body.ret Body.ret) =
        l1 ++ Event.stash 2 ⟨some 0, 3⟩ :: Event.resume 2 :: l2 ∧
      Event.resume 2 ∉ l1 ∧ Event.finished 2 ∉ l1 :=
  ⟨by decide, C1_stash_then_resume_then_finish
    (Body.await Body.ret Body.ret) 2 ⟨some 0, 3⟩ (by decide)⟩

/-- Witness for C2 at the chain "top-level task awaits one child". -/
theorem C2_bridge_blocks_until_chain_done_witness :
    (Body.await Body.ret Body.ret).faultFree = true ∧
    ∃ l, BlockOn (Body.await Body.ret Body.ret) = Event.create 0 ::
        Event.stash 0 ⟨none, 1⟩ :: Event.resume 0 :: l ++
          [Event.wait 1, Event.destroy 0] ∧
      List.countP isWait (BlockOn (Body.await Body.ret Body.ret)) = 1 ∧
      Event.notify 1 ∈ l ∧
      ∀ cid, Event.create cid ∈ BlockOn (Body.await Body.ret Body.ret) →
        Event.finished cid ∈ l :=
  ⟨by decide, C2_bridge_blocks_until_chain_done
    (Body.await Body.ret Body.ret) (by decide)⟩

/-- Witness for C3 at the trivial top-level task. -/
theorem C3_completion_reads_slot_notify_then_resume_witness :
    BlockOn Body.ret =
      [Event.create 0, Event.stash 0 ⟨none, 1⟩, Event.resume 0] ++
        Event.finished 0 ::
          [Event.notify 1, Event.wait 1, Event.destroy 0] ∧
    ∃ k l3, Event.stash 0 k ∈
        [Event.create 0, Event.stash 0 ⟨none, 1⟩, Event.resume 0] ∧
      [Event.notify 1, Event.wait 1, Event.destroy 0] = k.Resume ++ l3 ∧
      k.Resume.head? = some (Event.notify k.done) ∧
      ∀ h, Event.resume h ∈ k.Resume ↔ k.caller_continuation = some h :=
  ⟨by decide, C3_completion_reads_slot_notify_then_resume Body.ret
    [Event.create 0, Event.stash 0 ⟨none, 1⟩, Event.resume 0] 0
    [Event.notify 1, Event.wait 1, Event.destroy 0] (by decide)⟩

/-- Witness for C4 at the chain A awaits B awaits C. -/
theorem C4_resumption_mirrors_suspension_witness :
    (Body.await (Body.await Body.ret Body.ret) Body.ret).faultFree = true ∧
    mirror [] (BlockOn (Body.await (Body.await Body.ret Body.ret) Body.ret)) =
        true ∧
    BlockOn (Body.await (Body.await Body.ret Body.ret) Body.ret) =
      [Event.create 0, Event.stash 0 ⟨none, 1⟩, Event.resume 0,
       Event.create 2, Event.stash 2 ⟨some 0, 3⟩, Event.resume 2,
       Event.create 4, Event.stash 4 ⟨some 2, 5⟩, Event.resume 4,
       Event.finished 4, Event.notify 5, Event.resume 2,
       Event.destroy 4,
       Event.finished 2, Event.notify 3, Event.resume 0,
       Event.destroy 2,
       Event.finished 0, Event.notify 1,
       Event.wait 1, Event.destroy 0] :=
  ⟨by decide,
    (C4_resumption_mirrors_suspension
      (Body.await (Body.await Body.ret Body.ret) Body.ret) (by decide)).1,
    (C4_resumption_mirrors_suspension
      (Body.await (Body.await Body.ret Body.ret) Body.ret) (by decide)).2⟩

/-- Witness for C5 at the trivial top-level task. -/
theorem C5_lazy_start_witness :
    Event.create 0 ∈ BlockOn Body.ret ∧
    (promise_type.initial_suspend = SuspendPolicy.always ∧
     ∃ l1 k l2, BlockOn Body.ret = l1 ++ Event.create 0 ::
         Event.stash 0 k :: Event.resume 0 :: l2 ∧
       ∀ e ∈ l1, touches 0 e = false) :=
  ⟨by decide, C5_lazy_start Body.ret 0 (by decide)⟩

/-- Witness for C7 at a top-level task whose body faults immediately. -/
theorem C7_fault_terminates_before_signalling_witness :
    ((⟨none, 1⟩ : Continuation).done = 0 + 1 ∧ 0 + 1 < 2 ∧
      (run 0 ⟨none, 1⟩ Body.fault 2).term = true) ∧
    (promise_type.unhandled_exception = Event.terminate ∧
     (∃ l, (run 0 ⟨none, 1⟩ Body.fault 2).tr = l ++ [Event.terminate]) ∧
     Event.finished 0 ∉ (run 0 ⟨none, 1⟩ Body.fault 2).tr ∧
     Event.notify (⟨none, 1⟩ : Continuation).done ∉
       (run 0 ⟨none, 1⟩ Body.fault 2).tr ∧
     ∀ p, (⟨none, 1⟩ : Continuation).caller_continuation = some p →
       Event.resume p ∉ (run 0 ⟨none, 1⟩ Body.fault 2).tr) :=
  ⟨⟨rfl, by decide, rfl⟩,
    C7_fault_terminates_before_signalling Body.fault 0 ⟨none, 1⟩ 2 rfl
      (by decide) (fun p hp => Option.noConfusion hp) rfl⟩

/-- Witness for the amended C8 at the chain "top-level task awaits one
child". -/
theorem C8_one_waited_signal_witness :
    (Body.await Body.ret Body.ret).faultFree = true ∧
    (List.countP isWait (BlockOn (Body.await Body.ret Body.ret)) = 1 ∧
     (∀ s, Event.wait s ∈ BlockOn (Body.await Body.ret Body.ret) → s = 1) ∧
     ∀ cid k, Event.stash cid k ∈ BlockOn (Body.await Body.ret Body.ret) →
       cid ≠ 0 →
         (∃ p, k.caller_continuation = some p) ∧
         Event.wait k.done ∉ BlockOn (Body.await Body.ret Body.ret)) :=
  ⟨by decide, C8_one_waited_signal (Body.await Body.ret Body.ret)
    (by decide)⟩

/-- Witness for C9 at the awaited child of the chain "top-level task awaits
one child". -/
theorem C9_destroy_once_after_finish_witness :
    ((Body.await Body.ret Body.ret).faultFree = true ∧
      Event.create 2 ∈ BlockOn (Body.await Body.ret Body.ret)) ∧
    (final_awaiter.await_ready = false ∧
     ∃ l1 l2, BlockOn (Body.await Body.ret Body.ret) =
         l1 ++ Event.destroy 2 :: l2 ∧
       Event.finished 2 ∈ l1 ∧
       Event.destroy 2 ∉ l1 ∧ Event.destroy 2 ∉ l2) :=
  ⟨⟨by decide, by decide⟩, C9_destroy_once_after_finish
    (Body.await Body.ret Body.ret) 2 (by decide) (by decide)⟩

/-- Witness for C10 at the awaited child of the chain "top-level task awaits
one child". -/
theorem C10_await_never_fast_path_witness :
    Event.create 2 ∈ BlockOn (Body.await Body.ret Body.ret) ∧
    (Awaiter.await_ready = false ∧
     (∃ l1 k l2, BlockOn (Body.await Body.ret Body.ret) =
         l1 ++ Event.create 2 :: Event.stash 2 k ::
           Event.resume 2 :: l2) ∧
     BlockOn (Body.await Body.ret Body.ret) =
       [Event.create 0, Event.stash 0 ⟨none, 1⟩, Event.resume 0,
        Event.create 2, Event.stash 2 ⟨some 0, 3⟩, Event.resume 2,
        Event.finished 2, Event.notify 3, Event.resume 0,
        Event.destroy 2,
        Event.finished 0, Event.notify 1,
        Event.wait 1, Event.destroy 0]) :=
  ⟨by decide, C10_await_never_fast_path (Body.await Body.ret Body.ret) 2
    (by decide)⟩

end Nucleus
